import Mathlib

/-!
Shallow embedding of the bilingual punctuation checker
(src/.opencode/skills/punctuation-check/scripts/check_punctuation.py).

Text is modelled as List Char.  Rendering-only string fields of the
Python Issue record (context snippet, reason text) are omitted; all
fields that influence control flow or fixing are kept.  Python
str.isdigit and the regex class \d are modelled as ASCII digits, and
Python str.strip / regex \s as a fixed whitespace set (pyIsSpace);
no claim depends on exotic Unicode digits or spaces.
-/

set_option autoImplicit false

namespace CheckPunct

/-- The two script languages distinguished by the tool. -/
inductive Lang
  | zh
  | en
deriving DecidableEq, Repr, BEq

/-- Region tag of an Issue (Python field section, values body / refs). -/
inductive Region
  | body
  | refs
deriving DecidableEq, Repr, BEq

/-- CJK_PATTERN: the three ideographic code point ranges. -/
def isCJK (c : Char) : Bool :=
  (0x4e00 ≤ c.toNat && c.toNat ≤ 0x9fff) ||
  (0x3400 ≤ c.toNat && c.toNat ≤ 0x4dbf) ||
  (0xf900 ≤ c.toNat && c.toNat ≤ 0xfaff)

/-- EN_PATTERN: ASCII Latin letters. -/
def isEN (c : Char) : Bool :=
  (97 ≤ c.toNat && c.toNat ≤ 122) || (65 ≤ c.toNat && c.toNat ≤ 90)

/-- Python str.isdigit and the regex digit class, modelled as the
ASCII digits. -/
def pyIsDigit (c : Char) : Bool :=
  48 ≤ c.toNat && c.toNat ≤ 57

/-- Whitespace as used by Python str.strip and regex \s
(ASCII whitespace plus NBSP and the ideographic space). -/
def pyIsSpace (c : Char) : Bool :=
  c = ' ' || c = '\t' || c = '\n' || c = '\r' ||
  c = Char.ofNat 11 || c = Char.ofNat 12 ||
  c = Char.ofNat 0xa0 || c = Char.ofNat 0x3000

/-- Python str.strip. -/
def pyStrip (l : List Char) : List Char :=
  ((l.dropWhile pyIsSpace).reverse.dropWhile pyIsSpace).reverse

/-- Truthiness of s.strip(): the list has a non-whitespace character. -/
def hasNonSpace (l : List Char) : Bool :=
  l.any (fun c => !pyIsSpace c)

/-- Number of CJK characters (CJK_PATTERN.findall length). -/
def zhCount (t : List Char) : Nat := (t.filter isCJK).length

/-- Number of Latin letters (EN_PATTERN.findall length). -/
def enCount (t : List Char) : Nat := (t.filter isEN).length

/-- dominant_lang: zh when zh_ratio is at least one half; a text with
no CJK and no Latin characters has ratio 0.0 and is classified en.
zh_ratio of zh/(zh+en) is at least 0.5 exactly when en is at most zh. -/
def dominant_lang (t : List Char) : Lang :=
  if zhCount t + enCount t = 0 then Lang.en
  else if enCount t ≤ zhCount t then Lang.zh else Lang.en

/-- Quote glyph constants (written by code point to keep the sources
free of raw quote characters). -/
def STRAIGHT_DOUBLE : Char := Char.ofNat 34

def STRAIGHT_SINGLE : Char := Char.ofNat 39

def ZH_DQUOTE_OPEN : Char := Char.ofNat 0x201C

def ZH_DQUOTE_CLOSE : Char := Char.ofNat 0x201D

def ZH_SQUOTE_OPEN : Char := Char.ofNat 0x2018

def ZH_SQUOTE_CLOSE : Char := Char.ofNat 0x2019

/-- QUOTE_CHARS: all six quotation glyphs. -/
def QUOTE_CHARS : List Char :=
  [STRAIGHT_DOUBLE, STRAIGHT_SINGLE,
   ZH_DQUOTE_OPEN, ZH_DQUOTE_CLOSE, ZH_SQUOTE_OPEN, ZH_SQUOTE_CLOSE]

/-- ZH_TO_EN table (maps a full-width mark to a half-width one).  The
quote lines of the source dict literal are ASCII: they contribute one
entry mapping the straight double quote to itself (written twice) and
one entry whose key is a seven-character string (a triple-quote parse
accident), which no single-character lookup can ever hit; the curly
quote glyphs therefore have no entries.  Callers never look up any
quote glyph (SKIP_IN_CHAR_SCAN filters all six first). -/
def ZH_TO_EN (c : Char) : Option Char :=
  if c = '，' then some ',' else
  if c = '。' then some '.' else
  if c = '：' then some ':' else
  if c = '；' then some ';' else
  if c = '？' then some '?' else
  if c = '！' then some '!' else
  if c = '（' then some '(' else
  if c = '）' then some ')' else
  if c = STRAIGHT_DOUBLE then some STRAIGHT_DOUBLE else
  none

/-- EN_TO_ZH: the dict-comprehension inverse of ZH_TO_EN.  The
straight double quote maps to itself; the straight single quote in
the source maps to the seven-character accident string, which is not
a single suggestion character and sits behind the SKIP_IN_CHAR_SCAN
filter on every call path, so this single-character model leaves it
out. -/
def EN_TO_ZH (c : Char) : Option Char :=
  if c = ',' then some '，' else
  if c = '.' then some '。' else
  if c = ':' then some '：' else
  if c = ';' then some '；' else
  if c = '?' then some '？' else
  if c = '!' then some '！' else
  if c = '(' then some '（' else
  if c = ')' then some '）' else
  if c = STRAIGHT_DOUBLE then some STRAIGHT_DOUBLE else
  none

/-- Issue record.  The context and reason strings of the Python
dataclass are rendering-only and omitted; suggestion is always a
single character in the source (the unresolved marker is the single
question mark). -/
structure Issue where
  line_no : Nat
  col_no : Nat
  char : Char
  suggestion : Char
  region : Region
  is_warning : Bool
deriving DecidableEq, Repr

/-- Configuration (output_mode and report_output drive I/O only and
are omitted). -/
structure Config where
  refs_keyword : List Char
  quote_strategy : Char
deriving DecidableEq, Repr

/-- _check_period: half-width period in a primary-script context.
The ch argument is always the period at line[pos]; prev is the
preceding character, absent at position 0. -/
def _check_period (ch : Char) (pos line_no : Nat) (line : List Char)
    (expected : Lang) (region : Region) : Option Issue :=
  if expected ≠ Lang.zh then none
  else
    match (if pos = 0 then none else line.get? (pos - 1)) with
    | some p =>
      if pyIsDigit p then none
      else if isEN p then none
      else some ⟨line_no, pos, ch, '。', region, false⟩
    | none => some ⟨line_no, pos, ch, '。', region, false⟩

/-- check_single_punct_for_lang. -/
def check_single_punct_for_lang (ch : Char) (pos line_no : Nat)
    (line : List Char) (expected : Lang) (region : Region) : Option Issue :=
  match expected with
  | Lang.zh =>
    match EN_TO_ZH ch with
    | some sug =>
      if ch = '.' then _check_period ch pos line_no line Lang.zh region
      else some ⟨line_no, pos, ch, sug, region, false⟩
    | none => none
  | Lang.en =>
    match ZH_TO_EN ch with
    | some sug => some ⟨line_no, pos, ch, sug, region, false⟩
    | none => none

/-- A matched bracket pair as returned by find_bracket_pairs. -/
structure BPair where
  open_pos : Nat
  close_pos : Nat
  content : List Char
  open_ch : Char
  close_ch : Char
deriving DecidableEq, Repr

def isOpenBracket (c : Char) : Bool := c = '(' || c = '（'

def isCloseBracket (c : Char) : Bool := c = ')' || c = '）'

/-- Python slice l[a:b]. -/
def listSlice (l : List Char) (a b : Nat) : List Char :=
  (l.drop a).take (b - a)

/-- One step of the bracket scan: push openers, pop the most recent
opener on a closer (a closer with an empty stack is dropped). -/
def fbpStep (line : List Char) (s : List (Nat × Char) × List BPair)
    (ic : Nat × Char) : List (Nat × Char) × List BPair :=
  if isOpenBracket ic.2 then (ic :: s.1, s.2)
  else if isCloseBracket ic.2 then
    match s.1 with
    | [] => s
    | (op, oc) :: st =>
      (st, s.2 ++ [⟨op, ic.1, listSlice line (op + 1) ic.1, oc, ic.2⟩])
  else s

/-- find_bracket_pairs. -/
def find_bracket_pairs (line : List Char) : List BPair :=
  (line.enum.foldl (fbpStep line) ([], [])).2

/-- The should_be_half test of check_brackets: trimmed content starts
with a Latin letter and ends with a letter, a period or a digit. -/
def should_be_half (stripped : List Char) : Bool :=
  match stripped with
  | [] => false
  | c :: _ =>
    isEN c &&
    (match stripped.getLast? with
     | some l => isEN l || l = '.' || pyIsDigit l
     | none => false)

/-- Exactly four ASCII digits (the year test of check_brackets). -/
def isYear4 (stripped : List Char) : Bool :=
  stripped.length = 4 && stripped.all pyIsDigit

/-- check_brackets. -/
def check_brackets (line : List Char) (line_no : Nat) (region : Region) :
    List Issue :=
  (find_bracket_pairs line).flatMap (fun pr =>
    let stripped := pyStrip pr.content
    let sbh0 := should_be_half stripped
    let sbh := if isYear4 stripped then dominant_lang line == Lang.en else sbh0
    let eo := if sbh then '(' else '（'
    let ec := if sbh then ')' else '）'
    (if pr.open_ch ≠ eo then
       [⟨line_no, pr.open_pos, pr.open_ch, eo, region, false⟩] else []) ++
    (if pr.close_ch ≠ ec then
       [⟨line_no, pr.close_pos, pr.close_ch, ec, region, false⟩] else []))

/-- A resolved quote pair. -/
structure QuotePair where
  open_pos : Nat
  close_pos : Nat
  open_char : Char
  close_char : Char
  content : List Char
  sentence_lang : Lang
  in_brackets : Bool
deriving DecidableEq, Repr

/-- An unpaired quote (context snippet omitted). -/
structure UnpairedQuote where
  pos : Nat
  char : Char
  is_open : Bool
  line_no : Nat
deriving DecidableEq, Repr

/-- Portion of the prefix text[0:pos] after the last newline. -/
def afterLastNl (l : List Char) : List Char :=
  l.foldl (fun acc c => if c = '\n' then [] else acc ++ [c]) []

/-- _bracket_depth_at: bracket nesting depth (both conventions) from
the paragraph start up to pos, clamped at zero. -/
def _bracket_depth_at (text : List Char) (pos : Nat) : Nat :=
  (afterLastNl (text.take pos)).foldl
    (fun d c =>
      if c = '(' || c = '（' then d + 1
      else if c = ')' || c = '）' then d - 1
      else d) 0

/-- _pos_to_lineno_from_text (1-indexed). -/
def _pos_to_lineno_from_text (text : List Char) (pos : Nat) : Nat :=
  ((text.take pos).filter (fun c => c = '\n')).length + 1

/-- The zh_slot of a stack_b frame: not initialised, the caret
placeholder, or a real distinct-role opener. -/
inductive ZhSlot
  | vacant
  | caret
  | opener (pos : Nat) (ch : Char)
deriving DecidableEq, Repr

/-- One engine frame: pending distinct-role opener slot plus the
buffer of at most two pending ambiguous (straight) glyphs. -/
structure StackB where
  zh_slot : ZhSlot
  en_stack : List (Nat × Char)
deriving DecidableEq, Repr

def newStackB : StackB := ⟨ZhSlot.vacant, []⟩

/-- Whole engine state: active frame, suspended frames (head is the
most recently suspended), and the two append-only result lists. -/
structure QState where
  cur : StackB
  meta : List StackB
  pairs : List QuotePair
  unpaired : List UnpairedQuote
deriving DecidableEq, Repr

/-- The _warn helper: record an unpaired quote with its line number. -/
def mkWarn (full : List Char) (pos : Nat) (ch : Char) (isOp : Bool) :
    UnpairedQuote :=
  ⟨pos, ch, isOp, _pos_to_lineno_from_text full pos⟩

/-- Build the QuotePair recorded for two buffered ambiguous glyphs;
dflt is the sentence_lang fallback used when the content is blank
(zh at the displacement site, en at the kind-matched site). -/
def mkEnPair (full : List Char) (o0 o1 : Nat × Char) (dflt : Lang) :
    QuotePair :=
  let content := listSlice full (o0.1 + 1) o1.1
  ⟨o0.1, o1.1, o0.2, o1.2, content,
   if hasNonSpace content then dominant_lang content else dflt,
   decide (0 < _bracket_depth_at full o0.1)⟩

/-- _try_pair_en: add a straight glyph to the buffer.  A full buffer
(two glyphs of different kinds) is force-resolved as a pair from its
own two glyphs and the buffer keeps only the new glyph; otherwise the
glyph is appended, and two glyphs of the same kind resolve at once. -/
def try_pair_en (full : List Char) (st : QState) (new_pos : Nat)
    (new_ch : Char) : QState :=
  match st.cur.en_stack with
  | [o0, o1] =>
    { st with
      pairs := st.pairs ++ [mkEnPair full o0 o1 Lang.zh]
      cur := { st.cur with en_stack := [(new_pos, new_ch)] } }
  | en =>
    let en' := en ++ [(new_pos, new_ch)]
    match en' with
    | [e0, e1] =>
      if (e0.2 = STRAIGHT_DOUBLE ∧ e1.2 = STRAIGHT_DOUBLE) ∨
         (e0.2 = STRAIGHT_SINGLE ∧ e1.2 = STRAIGHT_SINGLE) then
        { st with
          pairs := st.pairs ++ [mkEnPair full e0 e1 Lang.en]
          cur := { st.cur with en_stack := [] } }
      else { st with cur := { st.cur with en_stack := en' } }
    | _ => { st with cur := { st.cur with en_stack := en' } }

/-- _pop_meta: restore the previously suspended frame, or a fresh one. -/
def popMeta (st : QState) : QState :=
  match st.meta with
  | [] => { st with cur := newStackB }
  | m :: ms => { st with cur := m, meta := ms }

/-- Distinct-role closer arriving with an empty buffer: placeholder
slot reports a stray closer; a real opener either kind-matches and
resolves a pair or reports both sides; then the outer frame is
restored. -/
def handleKnownClose (full : List Char) (st : QState) (abs_pos : Nat)
    (ch : Char) (in_brk : Bool) : QState :=
  let st2 :=
    match st.cur.zh_slot with
    | ZhSlot.caret =>
      { st with unpaired := st.unpaired ++ [mkWarn full abs_pos ch false] }
    | ZhSlot.opener zp zc =>
      let expClose := if zc = ZH_DQUOTE_OPEN then ZH_DQUOTE_CLOSE
                      else ZH_SQUOTE_CLOSE
      if ch ≠ expClose then
        { st with
          unpaired := st.unpaired ++
            [mkWarn full abs_pos ch false, mkWarn full zp zc true] }
      else
        let content := listSlice full (zp + 1) abs_pos
        { st with
          pairs := st.pairs ++
            [⟨zp, abs_pos, zc, ch, content,
              if hasNonSpace content then dominant_lang content else Lang.zh,
              in_brk⟩] }
    | ZhSlot.vacant => st
  popMeta st2

/-- One glyph of the per-paragraph queue, in document order. -/
def processGlyph (full : List Char) (st : QState) (g : Nat × Char) :
    QState :=
  let abs_pos := g.1
  let ch := g.2
  let in_brk := decide (0 < _bracket_depth_at full abs_pos)
  let isKnownOpen := ch = ZH_DQUOTE_OPEN || ch = ZH_SQUOTE_OPEN
  let isKnownClose := ch = ZH_DQUOTE_CLOSE || ch = ZH_SQUOTE_CLOSE
  let isStraight := ch = STRAIGHT_DOUBLE || ch = STRAIGHT_SINGLE
  match st.cur.zh_slot with
  | ZhSlot.vacant =>
    if isKnownOpen then
      { st with cur := { st.cur with zh_slot := ZhSlot.opener abs_pos ch } }
    else if isStraight then
      try_pair_en full
        { st with cur := { st.cur with zh_slot := ZhSlot.caret } } abs_pos ch
    else if isKnownClose then
      { st with unpaired := st.unpaired ++ [mkWarn full abs_pos ch false] }
    else st
  | _ =>
    let st1 :=
      if st.cur.en_stack ≠ [] ∧ (isKnownOpen || isKnownClose) then
        { st with
          unpaired := st.unpaired ++
            st.cur.en_stack.map (fun e => mkWarn full e.1 e.2 true)
          cur := { st.cur with en_stack := [] } }
      else st
    if st1.cur.en_stack = [] then
      if isStraight then try_pair_en full st1 abs_pos ch
      else if isKnownOpen then
        { st1 with
          meta := st1.cur :: st1.meta
          cur := { newStackB with zh_slot := ZhSlot.opener abs_pos ch } }
      else if isKnownClose then handleKnownClose full st1 abs_pos ch in_brk
      else st1
    else
      if isStraight then try_pair_en full st1 abs_pos ch else st1

/-- Paragraph-end warnings of one frame: each buffered ambiguous glyph
and, for a real opener slot, that opener; a caret placeholder adds
nothing. -/
def warnLayer (full : List Char) (layer : StackB) : List UnpairedQuote :=
  layer.en_stack.map (fun e => mkWarn full e.1 e.2 true) ++
  (match layer.zh_slot with
   | ZhSlot.opener zp zc => [mkWarn full zp zc true]
   | _ => [])

/-- Paragraph-end cleanup: active frame first, then the suspended
frames from the most recently suspended outward. -/
def finalizeQueue (full : List Char) (st : QState) : QState :=
  { st with
    unpaired := st.unpaired ++ warnLayer full st.cur ++
      st.meta.flatMap (warnLayer full) }

/-- _process_queue on one paragraph queue. -/
def process_queue (full : List Char) (pairs0 : List QuotePair)
    (unpaired0 : List UnpairedQuote) (queue : List (Nat × Char)) :
    List QuotePair × List UnpairedQuote :=
  let st := queue.foldl (processGlyph full)
    ⟨newStackB, [], pairs0, unpaired0⟩
  let st' := finalizeQueue full st
  (st'.pairs, st'.unpaired)

/-- The quote glyphs of one paragraph with their absolute offsets. -/
def para_queue (para : List Char) (off : Nat) : List (Nat × Char) :=
  para.enum.filterMap (fun ic =>
    if ic.2 ∈ QUOTE_CHARS then some (off + ic.1, ic.2) else none)

/-- Python text.split on the newline character. -/
def splitOnNl : List Char → List (List Char)
  | [] => [[]]
  | c :: rest =>
    if c = '\n' then [] :: splitOnNl rest
    else
      match splitOnNl rest with
      | [] => [[c]]
      | l :: ls => (c :: l) :: ls

/-- The backslash-n join inverse of splitOnNl. -/
def joinNl : List (List Char) → List Char
  | [] => []
  | [l] => l
  | l :: ls => l ++ '\n' :: joinNl ls

/-- The per-paragraph driver loop of pair_quotes_by_paragraph. -/
def pq_loop (full : List Char) :
    List (List Char) → Nat → List QuotePair → List UnpairedQuote →
    List QuotePair × List UnpairedQuote
  | [], _, ps, us => (ps, us)
  | para :: rest, off, ps, us =>
    let queue := para_queue para off
    let r := if queue = [] then (ps, us) else process_queue full ps us queue
    pq_loop full rest (off + para.length + 1) r.1 r.2

/-- pair_quotes_by_paragraph. -/
def pair_quotes_by_paragraph (full : List Char) :
    List QuotePair × List UnpairedQuote :=
  pq_loop full (splitOnNl full) 0 [] []

/-- decide_correct_quote_form: strategy A looks at sentence_lang and
the inside-bracket flag, strategy B at the content language with
sentence_lang as blank-content fallback. -/
def decide_correct_quote_form (pair : QuotePair) (strategy : Char) :
    Char × Char :=
  if strategy = 'A' then
    if pair.in_brackets then (STRAIGHT_DOUBLE, STRAIGHT_DOUBLE)
    else if pair.sentence_lang = Lang.zh then (ZH_DQUOTE_OPEN, ZH_DQUOTE_CLOSE)
    else (STRAIGHT_DOUBLE, STRAIGHT_DOUBLE)
  else
    let content_lang :=
      if hasNonSpace pair.content then dominant_lang pair.content
      else pair.sentence_lang
    if content_lang = Lang.zh then (ZH_DQUOTE_OPEN, ZH_DQUOTE_CLOSE)
    else (STRAIGHT_DOUBLE, STRAIGHT_DOUBLE)

/-- Quote replacement record (abs_pos, correct char, line, original). -/
structure QRep where
  pos : Nat
  new : Char
  line_no : Nat
  orig : Char
deriving DecidableEq, Repr

/-- Per-pair body of the check_quotes loop: one Issue and one
replacement per mismatched side, the Issue column being the
absolute offset of that side. -/
def quotePairStep (full : List Char) (strategy : Char) (region : Region)
    (acc : List Issue × List QRep) (pair : QuotePair) :
    List Issue × List QRep :=
  let e := decide_correct_quote_form pair strategy
  let acc1 :=
    if pair.open_char ≠ e.1 then
      let ln := _pos_to_lineno_from_text full pair.open_pos
      (acc.1 ++ [⟨ln, pair.open_pos, pair.open_char, e.1, region, false⟩],
       acc.2 ++ [⟨pair.open_pos, e.1, ln, pair.open_char⟩])
    else acc
  if pair.close_char ≠ e.2 then
    let ln := _pos_to_lineno_from_text full pair.close_pos
    (acc1.1 ++ [⟨ln, pair.close_pos, pair.close_char, e.2, region, false⟩],
     acc1.2 ++ [⟨pair.close_pos, e.2, ln, pair.close_char⟩])
  else acc1

/-- Per-unpaired-quote body of the check_quotes loop: one
manual-review warning at the absolute offset. -/
def quoteWarnStep (region : Region) (acc : List Issue)
    (uq : UnpairedQuote) : List Issue :=
  acc ++ [⟨uq.line_no, uq.pos, uq.char, '?', region, true⟩]

/-- check_quotes: per resolved pair, one Issue and one replacement per
mismatched side (column is the absolute offset); then one
manual-review warning per unpaired quote. -/
def check_quotes (full : List Char) (strategy : Char) (region : Region) :
    List Issue × List QRep :=
  let pr := pair_quotes_by_paragraph full
  let acc2 := pr.1.foldl (quotePairStep full strategy region) ([], [])
  (pr.2.foldl (quoteWarnStep region) acc2.1, acc2.2)

/-- detect_ref_author_lang. -/
def detect_ref_author_lang (entry : List Char) : Option Lang :=
  match pyStrip entry with
  | [] => none
  | c :: _ =>
    if isCJK c then some Lang.zh
    else if isEN c then some Lang.en
    else none

/-- Backtracking tail of the title regex: backslash-s star followed by
a nonempty greedy group; when everything after the period is
whitespace the star backs off one character. -/
def titleTail (r : List Char) : Option (List Char) :=
  if r = [] then none
  else some (r.drop (min (r.takeWhile pyIsSpace).length (r.length - 1)))

/-- Core of the title regex after the optional opening parenthesis:
four digits, an optional closing parenthesis, a period, then the
tail. -/
def titleCore (l : List Char) : Option (List Char) :=
  match l with
  | d1 :: d2 :: d3 :: d4 :: rest =>
    if pyIsDigit d1 && pyIsDigit d2 && pyIsDigit d3 && pyIsDigit d4 then
      match rest with
      | ')' :: '.' :: r => titleTail r
      | '.' :: r => titleTail r
      | _ => none
    else none
  | _ => none

/-- Attempt of the title regex at one position (greedy optional
opening parenthesis with backtracking). -/
def titleMatchAt (l : List Char) : Option (List Char) :=
  match l with
  | '(' :: rest =>
    match titleCore rest with
    | some r => some r
    | none => titleCore l
  | _ => titleCore l

/-- re.search of the title regex: leftmost matching position. -/
def titleSearch : List Char → Option (List Char)
  | [] => none
  | c :: rest =>
    match titleMatchAt (c :: rest) with
    | some r => some r
    | none => titleSearch rest

/-- detect_work_title_lang. -/
def detect_work_title_lang (entry : List Char) : Option Lang :=
  if entry.contains '《' || entry.contains '》' then some Lang.zh
  else
    match titleSearch entry with
    | some region => some (dominant_lang region)
    | none => none

/-- SKIP_IN_CHAR_SCAN: brackets and quotes are handled by dedicated
detectors. -/
def SKIP_IN_CHAR_SCAN : List Char :=
  ['(', ')', '（', '）',
   STRAIGHT_SINGLE, STRAIGHT_DOUBLE,
   ZH_DQUOTE_OPEN, ZH_DQUOTE_CLOSE, ZH_SQUOTE_OPEN, ZH_SQUOTE_CLOSE]

/-- check_ref_entry. -/
def check_ref_entry (entry : List Char) (line_no : Nat) : List Issue :=
  let author := detect_ref_author_lang entry
  let title := detect_work_title_lang entry
  if (match author, title with
      | some a, some t => a != t
      | _, _ => false) then
    [⟨line_no, 0, '?', '?', Region.refs, true⟩]
  else
    let expected := author.getD Lang.en
    entry.enum.filterMap (fun ic =>
      if ic.2 ∈ SKIP_IN_CHAR_SCAN then none
      else check_single_punct_for_lang ic.2 ic.1 line_no entry expected
        Region.refs)

/-- check_body_line (the config argument of the source is unused
there and omitted). -/
def check_body_line (line : List Char) (line_no : Nat) : List Issue :=
  let lang := dominant_lang line
  (line.enum.filterMap (fun ic =>
    if ic.2 ∈ SKIP_IN_CHAR_SCAN then none
    else check_single_punct_for_lang ic.2 ic.1 line_no line lang
      Region.body))
  ++ check_brackets line line_no Region.body

/-- One Latin-prefix comparison for substring containment. -/
def prefMatch : List Char → List Char → Bool
  | [], _ => true
  | _ :: _, [] => false
  | p :: ps, c :: cs => p == c && prefMatch ps cs

/-- Python substring containment (keyword in line). -/
def containsSub (pat : List Char) : List Char → Bool
  | [] => prefMatch pat []
  | c :: rest => prefMatch pat (c :: rest) || containsSub pat rest

/-- Index of the first line containing the keyword. -/
def sbrGo (kw : List Char) : List (List Char) → Nat → Option Nat
  | [], _ => none
  | l :: rest, i => if containsSub kw l then some i else sbrGo kw rest (i + 1)

/-- split_body_refs; when no line matches, the unused start marker is
modelled as 0 (the source uses -1 and never reads it, since the
reference list is then empty). -/
def split_body_refs (lines : List (List Char)) (kw : List Char) :
    List (List Char) × List (List Char) × Nat :=
  match sbrGo kw lines 0 with
  | some i => (lines.take (i + 1), lines.drop (i + 1), i + 2)
  | none => (lines, [], 0)

/-- Stable descending insertion by absolute position (Python sorted
with reverse=True is stable: an equal key stays behind earlier
entries). -/
def insertQRepDesc (r : QRep) : List QRep → List QRep
  | [] => [r]
  | x :: xs => if x.pos < r.pos then r :: x :: xs else x :: insertQRepDesc r xs

def sortQRepsDesc (l : List QRep) : List QRep :=
  l.foldl (fun acc r => insertQRepDesc r acc) []

/-- One absolute-offset replacement, guarded by the original char. -/
def applyQRep (s : List Char) (r : QRep) : List Char :=
  if s.get? r.pos = some r.orig then s.set r.pos r.new else s

/-- The Issues that the per-line pass of apply_fixes applies:
no warnings, no unresolved suggestions, no quote-to-quote
replacements (those went through the absolute pass). -/
def eligibleFix (iss : Issue) : Bool :=
  !iss.is_warning && iss.suggestion != '?' &&
  !(QUOTE_CHARS.contains iss.char && QUOTE_CHARS.contains iss.suggestion)

/-- Stable descending insertion by column. -/
def insertIssueColDesc (iss : Issue) : List Issue → List Issue
  | [] => [iss]
  | x :: xs =>
    if x.col_no < iss.col_no then iss :: x :: xs
    else x :: insertIssueColDesc iss xs

def sortIssuesColDesc (l : List Issue) : List Issue :=
  l.foldl (fun acc i => insertIssueColDesc i acc) []

/-- Apply the per-line column replacements of one line, back to
front, each guarded by the original character. -/
def applyOnLine (line : List Char) (issues : List Issue) : List Char :=
  (sortIssuesColDesc issues).foldl
    (fun l iss =>
      if l.get? iss.col_no = some iss.char then l.set iss.col_no iss.suggestion
      else l)
    line

/-- Line numbers in first-occurrence order (dict grouping order). -/
def dedupKeys (l : List Nat) : List Nat :=
  l.foldl (fun acc k => if k ∈ acc then acc else acc ++ [k]) []

/-- One line-group application of the per-line pass: replace line
ln (1-based) by its column-fixed version.  Line number 0 never
occurs in this program (all detectors emit 1-based lines); the
Python negative-index quirk for it is out of the modelled domain and
such a group is skipped. -/
def lineFixStep (elig : List Issue) (ls : List (List Char)) (ln : Nat) :
    List (List Char) :=
  if h : 1 ≤ ln ∧ ln - 1 < ls.length then
    ls.set (ln - 1)
      (applyOnLine (ls.get ⟨ln - 1, h.2⟩)
        (elig.filter (fun iss => iss.line_no == ln)))
  else ls

/-- apply_fixes: absolute quote replacements first (descending), then
per-line column replacements for the remaining eligible Issues. -/
def apply_fixes (text : List Char) (issues : List Issue)
    (qreps : List QRep) : List Char :=
  let t1 := (sortQRepsDesc qreps).foldl applyQRep text
  let lines := splitOnNl t1
  let elig := issues.filter eligibleFix
  let keys := dedupKeys (elig.map (fun i => i.line_no))
  joinNl (keys.foldl (lineFixStep elig) lines)

/-- process: body lines one by one, quotes over the whole body, then
reference entries, then the fixes. -/
def process (text : List Char) (config : Config) :
    List Issue × List Char :=
  let lines := splitOnNl text
  let sbr := split_body_refs lines config.refs_keyword
  let body_lines := sbr.1
  let ref_lines := sbr.2.1
  let ref_start := sbr.2.2
  let bodyIssues :=
    (body_lines.enum.map (fun il => check_body_line il.2 (il.1 + 1))).flatten
  let body_text := joinNl body_lines
  let cq := check_quotes body_text config.quote_strategy Region.body
  let refIssues :=
    (ref_lines.enum.map (fun jl =>
      if hasNonSpace jl.2 then check_ref_entry jl.2 (ref_start + jl.1)
      else [])).flatten
  let allIssues := bodyIssues ++ cq.1 ++ refIssues
  (allIssues, apply_fixes text allIssues cq.2)

/-- Abbreviation for writing concrete texts. -/
def strL (s : String) : List Char := s.toList

/-- Claim C7 rule as stated: narrow brackets whenever the trimmed
content starts AND ends with Latin letters, digits, or a period;
an exact 4-digit year follows the line language; otherwise wide. -/
def expected_brackets_claim (line stripped : List Char) : Char × Char :=
  if (match stripped with
      | c :: _ => isEN c || pyIsDigit c || c = '.'
      | [] => false) &&
     (match stripped.getLast? with
      | some l => isEN l || pyIsDigit l || l = '.'
      | none => false) then ('(', ')')
  else if isYear4 stripped then
    (if dominant_lang line == Lang.en then ('(', ')') else ('（', '）'))
  else ('（', '）')

/-- Amended C7 rule: narrow brackets only when the trimmed content
starts with a Latin LETTER (and ends with a letter, digit or
period); the year and fallback cases are unchanged. -/
def expected_brackets_amended (line stripped : List Char) : Char × Char :=
  if (match stripped with
      | c :: _ => isEN c
      | [] => false) &&
     (match stripped.getLast? with
      | some l => isEN l || pyIsDigit l || l = '.'
      | none => false) then ('(', ')')
  else if isYear4 stripped then
    (if dominant_lang line == Lang.en then ('(', ')') else ('（', '）'))
  else ('（', '）')

/-- Per-pair Issues that the amended C7 rule predicts. -/
def bracket_issues_amended (line : List Char) (ln : Nat) (reg : Region)
    (pr : BPair) : List Issue :=
  let e := expected_brackets_amended line (pyStrip pr.content)
  (if pr.open_ch ≠ e.1 then
     [⟨ln, pr.open_pos, pr.open_ch, e.1, reg, false⟩] else []) ++
  (if pr.close_ch ≠ e.2 then
     [⟨ln, pr.close_pos, pr.close_ch, e.2, reg, false⟩] else [])

/-- Position shift of a bracket pair by one (for prepended input). -/
def shiftBPair (pr : BPair) : BPair :=
  ⟨pr.open_pos + 1, pr.close_pos + 1, pr.content, pr.open_ch, pr.close_ch⟩

/-- Paragraph-end warning targets of one frame: the buffered
ambiguous glyphs, then a real opener if the slot holds one; a caret
placeholder and a vacant slot contribute nothing. -/
def warnTargets (layer : StackB) : List (Nat × Char) :=
  layer.en_stack ++
  (match layer.zh_slot with
   | ZhSlot.opener zp zc => [(zp, zc)]
   | _ => [])

/-- Sum of the line lengths (plus separators) of the first k lines. -/
def offPre (ls : List (List Char)) (k : Nat) : Nat :=
  ((ls.take k).map (fun l => l.length + 1)).sum

/-- Absolute offset of the start of line k (0-based) of a text. -/
def lineOffset (t : List Char) (k : Nat) : Nat :=
  offPre (splitOnNl t) k

/-- Absolute offset a per-line Issue points at. -/
def absOfIssue (t : List Char) (iss : Issue) : Nat :=
  lineOffset t (iss.line_no - 1) + iss.col_no

/-- C7 counterexample line. -/
def lC7 : List Char := ['(', '1', 'a', ')']

/-- C9 witness text. -/
def tC9 : List Char := ['a', 'b', '\n', 'c', 'd']

/-- C9 witness absolute quote replacement list. -/
def qrepsC9 : List QRep := [⟨0, 'x', 1, 'a'⟩]

/-- C9 witness per-line issue list. -/
def issC9 : List Issue := [⟨2, 0, 'c', 'y', Region.body, false⟩]

/-- C1 counterexample paragraph: ideographic sentence with a short
Latin quotation. -/
def tC1 : List Char :=
  strL "中中中中" ++ [ZH_DQUOTE_OPEN, 'a', 'b', ZH_DQUOTE_CLOSE] ++ strL "中中中中"

/-- C2 counterexample paragraph: ideographic sentence around a curly
pair with Latin-dominant content. -/
def tC2 : List Char :=
  strL "他说" ++ [ZH_DQUOTE_OPEN] ++ strL "hello world" ++
    [ZH_DQUOTE_CLOSE] ++ strL "了"

/-- C3 counterexample text: one Latin char, newline, then a lone
curly opener on line two. -/
def tC3 : List Char := ['a', '\n', ZH_DQUOTE_OPEN]

/-- C6 failing input: a reference entry whose ideographic full stop
sits right after a year. -/
def tC6 : List Char := strL "参考文献\nSmith 2011。中中中中"

/-- Default configuration used for the C6 run. -/
def cfgC6 : Config := ⟨strL "参考文献", 'A'⟩

/-- The patched text the first C6 run produces. -/
def tC6fixed : List Char := strL "参考文献\nSmith 2011.中中中中"

/-- Text for the C4 witness: letters interleaved with a straight
double quote, a straight single quote, then another double. -/
def tC4 : List Char :=
  ['a', STRAIGHT_DOUBLE, 'b', STRAIGHT_SINGLE, 'c']

/-- Engine state for the C4 witness: ambiguous-opened level whose
buffer holds the two mismatched straight glyphs of tC4. -/
def stC4 : QState :=
  ⟨⟨ZhSlot.caret, [(1, STRAIGHT_DOUBLE), (3, STRAIGHT_SINGLE)]⟩, [], [], []⟩

/-- Single-paragraph text for the C2 witness (curly pair, primary
content). -/
def tC2w : List Char :=
  strL "他说" ++ [ZH_DQUOTE_OPEN] ++ strL "中文内容" ++
    [ZH_DQUOTE_CLOSE] ++ strL "结束"

/-- Single-paragraph text for the C5 witness: a lone unmatched curly
opener. -/
def tC5w : List Char := strL "中文" ++ [ZH_DQUOTE_OPEN] ++ strL "文本"

/-- Recorded-language property of a resolved pair: when the enclosed
content has a classifiable (non-blank) character, the recorded
sentence_lang field is the dominant language of that content. -/
def PairContentLang (pr : QuotePair) : Prop :=
  hasNonSpace pr.content = true → pr.sentence_lang = dominant_lang pr.content

/-- A recorded glyph occurrence really is the character at its
offset of the text. -/
def GoodE (full : List Char) (e : Nat × Char) : Prop :=
  full.get? e.1 = some e.2

/-- All glyphs a frame holds are characters at their offsets. -/
def StBGood (full : List Char) (b : StackB) : Prop :=
  (∀ e ∈ b.en_stack, GoodE full e) ∧
  (∀ zp zc, b.zh_slot = ZhSlot.opener zp zc → GoodE full (zp, zc))

/-- All glyphs an engine state holds or has emitted are characters
at their offsets. -/
def QSGood (full : List Char) (st : QState) : Prop :=
  StBGood full st.cur ∧ (∀ b ∈ st.meta, StBGood full b) ∧
  (∀ pr ∈ st.pairs,
    GoodE full (pr.open_pos, pr.open_char) ∧
    GoodE full (pr.close_pos, pr.close_char)) ∧
  (∀ u ∈ st.unpaired, GoodE full (u.pos, u.char))

/-- All glyphs the bracket scan state holds are characters at their
offsets of the line. -/
def FbpGood (l : List Char) (s : List (Nat × Char) × List BPair) : Prop :=
  (∀ e ∈ s.1, l.get? e.1 = some e.2) ∧
  (∀ pr ∈ s.2,
    l.get? pr.open_pos = some pr.open_ch ∧
    l.get? pr.close_pos = some pr.close_ch)

/-! ### Helper lemmas -/

theorem en_to_zh_period : EN_TO_ZH '.' = some '。' := by decide

theorem isEN_of_isDigit_false {c : Char} (h : pyIsDigit c = true) :
    isEN c = false := by
  simp only [pyIsDigit, Bool.and_eq_true, decide_eq_true_eq] at h
  simp only [isEN, Bool.or_eq_false_iff, Bool.and_eq_false_iff,
    decide_eq_false_iff_not]
  omega

/-! ### C8 -/

/-- C8: for a half-width period scanned with expected primary script,
a preceding digit or a preceding Latin letter suppresses the Issue,
and otherwise an auto-fixable Issue suggesting the ideographic full
stop is produced. -/
theorem c8_period_disambiguation (line : List Char) (pos ln : Nat)
    (reg : Region) :
    ((∃ p, (if pos = 0 then none else line.get? (pos - 1)) = some p ∧
        pyIsDigit p = true) →
      check_single_punct_for_lang '.' pos ln line Lang.zh reg = none) ∧
    ((∃ p, (if pos = 0 then none else line.get? (pos - 1)) = some p ∧
        isEN p = true) →
      check_single_punct_for_lang '.' pos ln line Lang.zh reg = none) ∧
    ((∀ p, (if pos = 0 then none else line.get? (pos - 1)) = some p →
        pyIsDigit p = false ∧ isEN p = false) →
      check_single_punct_for_lang '.' pos ln line Lang.zh reg =
        some ⟨ln, pos, '.', '。', reg, false⟩) := by
  have hred : check_single_punct_for_lang '.' pos ln line Lang.zh reg =
      _check_period '.' pos ln line Lang.zh reg := by
    simp [check_single_punct_for_lang, en_to_zh_period]
  refine ⟨?_, ?_, ?_⟩
  · rintro ⟨p, hp, hd⟩
    rw [hred]
    simp only [_check_period, hp]
    simp [hd]
  · rintro ⟨p, hp, he⟩
    rw [hred]
    simp only [_check_period, hp]
    rcases hdig : pyIsDigit p with _ | _
    · simp [hdig, he]
    · simp [hdig]
  · intro hall
    rw [hred]
    simp only [_check_period]
    rcases hprev : (if pos = 0 then none else line.get? (pos - 1)) with _ | p
    · simp
    · rcases hall p hprev with ⟨h1, h2⟩
      simp [h1, h2]

/-- Closed witness for C8: a digit suppresses the flag at one
concrete input, and a preceding ideograph triggers it at another. -/
theorem c8_period_disambiguation_witness :
    check_single_punct_for_lang '.' 1 1 ['3', '.'] Lang.zh Region.body =
      none ∧
    check_single_punct_for_lang '.' 1 1 ['中', '.'] Lang.zh Region.body =
      some ⟨1, 1, '.', '。', Region.body, false⟩ :=
  ⟨(c8_period_disambiguation ['3', '.'] 1 1 Region.body).1
      ⟨'3', by decide, by decide⟩,
   (c8_period_disambiguation ['中', '.'] 1 1 Region.body).2.2
      (by decide)⟩

/-! ### C7 -/

/-- C7 counterexample: the trimmed content of the pair in the line
open-paren 1 a close-paren starts with a digit and ends with a
letter, so the claim as stated expects narrow (half-width) brackets
and no Issues, yet check_brackets flags both narrow brackets and
demands wide ones. -/
theorem c7_counterexample :
    find_bracket_pairs lC7 = [⟨0, 3, ['1', 'a'], '(', ')'⟩] ∧
    expected_brackets_claim lC7 (pyStrip ['1', 'a']) = ('(', ')') ∧
    check_brackets lC7 1 Region.body =
      [⟨1, 0, '(', '（', Region.body, false⟩,
       ⟨1, 3, ')', '）', Region.body, false⟩] := by
  refine ⟨by decide, by decide, by decide⟩

/-- C7 amended: check_brackets flags each side of each pair against
the amended rule (narrow only when the trimmed content starts with a
Latin letter and ends with a letter, digit or period; an exact
4-digit year follows the line language; otherwise wide). -/
theorem expected_amended_eq (line stripped : List Char) :
    expected_brackets_amended line stripped =
      (if (if isYear4 stripped then dominant_lang line == Lang.en
           else should_be_half stripped) = true
       then (('(' : Char), (')' : Char)) else ('（', '）')) := by
  rcases stripped with _ | ⟨c, rest⟩
  · simp [expected_brackets_amended, should_be_half, isYear4]
  · rcases hy : isYear4 (c :: rest) with _ | _
    · simp only [expected_brackets_amended, should_be_half, hy,
        Bool.false_eq_true, if_false]
      rcases hl : (c :: rest).getLast? with _ | l
      · simp at hl
      · have hcomm : (isEN l || pyIsDigit l || decide (l = '.')) =
            (isEN l || decide (l = '.') || pyIsDigit l) := by
          cases isEN l <;> cases pyIsDigit l <;> cases decide (l = '.') <;> rfl
        simp only [hcomm]
    · have hc : pyIsDigit c = true := by
        simp only [isYear4, List.all_cons, Bool.and_eq_true,
          decide_eq_true_eq] at hy
        exact hy.2.1
      have hA : isEN c = false := isEN_of_isDigit_false hc
      simp only [expected_brackets_amended, hy, hA, Bool.false_and,
        Bool.false_eq_true, if_false, if_true]

/-- C7 amended: check_brackets flags each side of each pair against
the amended rule (narrow only when the trimmed content starts with a
Latin letter and ends with a letter, digit or period; an exact
4-digit year follows the line language; otherwise wide). -/
theorem c7_bracket_expected_convention (line : List Char) (ln : Nat)
    (reg : Region) :
    check_brackets line ln reg =
      (find_bracket_pairs line).flatMap (bracket_issues_amended line ln reg) := by
  unfold check_brackets bracket_issues_amended
  congr 1
  funext pr
  rw [expected_amended_eq]
  rcases h : (if isYear4 (pyStrip pr.content) then dominant_lang line == Lang.en
      else should_be_half (pyStrip pr.content)) with _ | _ <;>
    simp [h]

/-! ### C10 helpers -/

theorem enumFrom_shift {α : Type} (l : List α) (n : Nat) :
    l.enumFrom (n + 1) = (l.enumFrom n).map (fun e => (e.1 + 1, e.2)) := by
  induction l generalizing n with
  | nil => rfl
  | cons a t ih => simp [List.enumFrom, ih]

theorem enum_cons' {α : Type} (a : α) (l : List α) :
    (a :: l).enum = (0, a) :: l.enum.map (fun e => (e.1 + 1, e.2)) := by
  simp [List.enum, List.enumFrom, enumFrom_shift]

theorem enumFrom_append' {α : Type} (l1 l2 : List α) (n : Nat) :
    (l1 ++ l2).enumFrom n = l1.enumFrom n ++ l2.enumFrom (n + l1.length) := by
  induction l1 generalizing n with
  | nil => simp
  | cons a t ih =>
    have harith : n + 1 + t.length = n + (t.length + 1) := by omega
    simp [List.enumFrom, ih, harith]

theorem enum_concat {α : Type} (l : List α) (c : α) :
    (l ++ [c]).enum = l.enum ++ [(l.length, c)] := by
  simp [List.enum, enumFrom_append', List.enumFrom]

theorem listSlice_getElem? (l : List Char) (a b i : Nat) :
    (listSlice l a b).get? i =
      if i < b - a then l.get? (a + i) else none := by
  simp [listSlice, List.get?_eq_getElem?, List.getElem?_take,
    List.getElem?_drop]

theorem listSlice_cons_succ (c : Char) (l : List Char) (a b : Nat) :
    listSlice (c :: l) (a + 1) (b + 1) = listSlice l a b := by
  simp [listSlice, Nat.succ_sub_succ]

theorem listSlice_concat (l : List Char) (c : Char) (a b : Nat)
    (hb : b ≤ l.length) : listSlice (l ++ [c]) a b = listSlice l a b := by
  apply List.ext_get?
  intro i
  rw [listSlice_getElem?, listSlice_getElem?]
  split
  · next hi =>
    rw [List.get?_eq_getElem?, List.get?_eq_getElem?]
    exact List.getElem?_append_left (by omega)
  · rfl

theorem isOpen_of_isClose_false {c : Char} (h : isCloseBracket c = true) :
    isOpenBracket c = false := by
  simp only [isCloseBracket, Bool.or_eq_true, decide_eq_true_eq] at h
  rcases h with h | h <;> subst h <;> decide

theorem mem_enum_fst_lt {α : Type} {l : List α} {e : Nat × α}
    (h : e ∈ l.enum) : e.1 < l.length := by
  rw [List.mem_enum_iff_getElem?] at h
  exact (List.getElem?_eq_some.mp h).1

theorem fbpStep_concat_eq (l : List Char) (c : Char)
    (s : List (Nat × Char) × List BPair) (e : Nat × Char)
    (he : e.1 ≤ l.length) :
    fbpStep (l ++ [c]) s e = fbpStep l s e := by
  unfold fbpStep
  split
  · rfl
  · split
    · rcases s.1 with _ | ⟨⟨op, oc⟩, st⟩
      · rfl
      · simp [listSlice_concat l c (op + 1) e.1 he]
    · rfl

theorem fbp_foldl_concat (l : List Char) (c : Char) :
    ∀ (es : List (Nat × Char)) (s : List (Nat × Char) × List BPair),
    (∀ e ∈ es, e.1 ≤ l.length) →
    es.foldl (fbpStep (l ++ [c])) s = es.foldl (fbpStep l) s := by
  intro es
  induction es with
  | nil => intro s _; rfl
  | cons e t ih =>
    intro s hes
    simp only [List.foldl_cons]
    rw [fbpStep_concat_eq l c s e (hes e (by simp))]
    exact ih _ (fun x hx => hes x (by simp [hx]))

/-- Shift of the scan state by one position. -/
def shiftFbpState (s : List (Nat × Char) × List BPair) :
    List (Nat × Char) × List BPair :=
  (s.1.map (fun x => (x.1 + 1, x.2)), s.2.map shiftBPair)

theorem fbpStep_shift (c : Char) (l : List Char)
    (s : List (Nat × Char) × List BPair) (e : Nat × Char) :
    fbpStep (c :: l) (shiftFbpState s) (e.1 + 1, e.2) =
      shiftFbpState (fbpStep l s e) := by
  unfold fbpStep shiftFbpState
  split
  · rfl
  · split
    · rcases s with ⟨s1, s2⟩
      rcases s1 with _ | ⟨⟨op, oc⟩, st⟩
      · rfl
      · simp [listSlice_cons_succ, shiftBPair]
    · rfl

theorem fbp_foldl_shift (c : Char) (l : List Char) :
    ∀ (es : List (Nat × Char)) (s : List (Nat × Char) × List BPair),
    (es.map (fun e => (e.1 + 1, e.2))).foldl (fbpStep (c :: l))
        (shiftFbpState s) =
      shiftFbpState (es.foldl (fbpStep l) s) := by
  intro es
  induction es with
  | nil => intro s; rfl
  | cons e t ih =>
    intro s
    simp only [List.map_cons, List.foldl_cons]
    rw [fbpStep_shift c l s e]
    exact ih _

/-! ### C10 -/

/-- C10: unmatched bracket glyphs are silently ignored.  Every Issue
of check_brackets points at an endpoint of a returned pair; a
trailing unmatched opener yields the same pairs as without it; a
leading closer (which never has a pending opener) yields the same
pairs shifted by one. -/
theorem c10_unbalanced_brackets_ignored :
    (∀ (line : List Char) (ln : Nat) (reg : Region),
      ∀ iss ∈ check_brackets line ln reg,
        ∃ pr ∈ find_bracket_pairs line,
          (iss.col_no = pr.open_pos ∧ iss.char = pr.open_ch) ∨
          (iss.col_no = pr.close_pos ∧ iss.char = pr.close_ch)) ∧
    (∀ (l : List Char) (c : Char), isOpenBracket c = true →
      find_bracket_pairs (l ++ [c]) = find_bracket_pairs l) ∧
    (∀ (l : List Char) (c : Char), isCloseBracket c = true →
      find_bracket_pairs (c :: l) = (find_bracket_pairs l).map shiftBPair) := by
  refine ⟨?_, ?_, ?_⟩
  · intro line ln reg iss hiss
    simp only [check_brackets, List.mem_flatMap] at hiss
    rcases hiss with ⟨pr, hpr, hiss⟩
    refine ⟨pr, hpr, ?_⟩
    simp only [List.mem_append] at hiss
    rcases hiss with h | h <;> rw [List.mem_ite_nil_right] at h <;>
      rcases h with ⟨-, h⟩ <;> rcases List.mem_singleton.mp h with rfl
    · exact Or.inl ⟨rfl, rfl⟩
    · exact Or.inr ⟨rfl, rfl⟩
  · intro l c hc
    unfold find_bracket_pairs
    rw [enum_concat, List.foldl_append,
      fbp_foldl_concat l c l.enum ([], [])
        (fun e he => Nat.le_of_lt (mem_enum_fst_lt he))]
    simp only [List.foldl_cons, List.foldl_nil]
    unfold fbpStep
    rw [if_pos hc]
  · intro l c hc
    unfold find_bracket_pairs
    rw [enum_cons']
    simp only [List.foldl_cons]
    have h0 : fbpStep (c :: l) ([], []) (0, c) = ([], []) := by
      simp [fbpStep, isOpen_of_isClose_false hc, hc]
    rw [h0]
    have := fbp_foldl_shift c l l.enum ([], [])
    simp only [shiftFbpState, List.map_nil] at this
    rw [this]

/-- Closed witness for C10 at concrete lines. -/
theorem c10_unbalanced_brackets_ignored_witness :
    (∃ pr ∈ find_bracket_pairs ['（', 'a', '）'],
      ((⟨1, 0, '（', '(', Region.body, false⟩ : Issue).col_no = pr.open_pos ∧
       (⟨1, 0, '（', '(', Region.body, false⟩ : Issue).char = pr.open_ch) ∨
      ((⟨1, 0, '（', '(', Region.body, false⟩ : Issue).col_no = pr.close_pos ∧
       (⟨1, 0, '（', '(', Region.body, false⟩ : Issue).char = pr.close_ch)) ∧
    find_bracket_pairs (['a'] ++ ['(']) = find_bracket_pairs ['a'] ∧
    find_bracket_pairs (')' :: ['（', '）']) =
      (find_bracket_pairs ['（', '）']).map shiftBPair :=
  ⟨c10_unbalanced_brackets_ignored.1 ['（', 'a', '）'] 1 Region.body
      ⟨1, 0, '（', '(', Region.body, false⟩ (by decide),
   c10_unbalanced_brackets_ignored.2.1 ['a'] '(' (by decide),
   c10_unbalanced_brackets_ignored.2.2 ['（', '）'] ')' (by decide)⟩

/-! ### C4 helpers -/

theorem straight_not_known {ch : Char}
    (h : ch = STRAIGHT_DOUBLE ∨ ch = STRAIGHT_SINGLE) :
    (ch = ZH_DQUOTE_OPEN || ch = ZH_SQUOTE_OPEN) = false ∧
    (ch = ZH_DQUOTE_CLOSE || ch = ZH_SQUOTE_CLOSE) = false ∧
    (ch = STRAIGHT_DOUBLE || ch = STRAIGHT_SINGLE) = true := by
  rcases h with rfl | rfl <;> refine ⟨by decide, by decide, by decide⟩

theorem try_pair_en_full (full : List Char) (st : QState) (p : Nat)
    (ch : Char) (a b : Nat × Char) (hen : st.cur.en_stack = [a, b]) :
    try_pair_en full st p ch =
      { st with
        pairs := st.pairs ++ [mkEnPair full a b Lang.zh]
        cur := { st.cur with en_stack := [(p, ch)] } } := by
  unfold try_pair_en
  split
  · next o0 o1 heq =>
    rw [hen] at heq
    rcases heq with ⟨rfl, rfl⟩ | _
    rfl
  · next hne =>
    exact absurd hen (hne a b)

/-! ### C4 -/

/-- C4: with the ambiguous buffer full of two different-kind glyphs,
a further ambiguous glyph (its kind necessarily matching one of the
buffered two) displaces the older pair, which is force-resolved from
its own two glyphs, and the buffer then holds exactly the new glyph;
no warning is recorded. -/
theorem c4_displacement (full : List Char) (st : QState) (p : Nat)
    (ch : Char) (a b : Nat × Char)
    (hen : st.cur.en_stack = [a, b])
    (hkinds : (a.2 = STRAIGHT_DOUBLE ∧ b.2 = STRAIGHT_SINGLE) ∨
      (a.2 = STRAIGHT_SINGLE ∧ b.2 = STRAIGHT_DOUBLE))
    (hch : ch = STRAIGHT_DOUBLE ∨ ch = STRAIGHT_SINGLE)
    (hmatchKind : ch = a.2 ∨ ch = b.2) :
    (processGlyph full st (p, ch)).pairs =
      st.pairs ++ [mkEnPair full a b Lang.zh] ∧
    (processGlyph full st (p, ch)).cur.en_stack = [(p, ch)] ∧
    (processGlyph full st (p, ch)).unpaired = st.unpaired := by
  obtain ⟨hno, hnc, hs⟩ := straight_not_known hch
  have hne : st.cur.en_stack ≠ [] := by rw [hen]; simp
  cases hslot : st.cur.zh_slot with
  | vacant =>
    have hred : processGlyph full st (p, ch) =
        try_pair_en full
          { st with cur := { st.cur with zh_slot := ZhSlot.caret } } p ch := by
      simp only [processGlyph, hslot, hno, hnc, hs]
      simp
    rw [hred, try_pair_en_full _ _ _ _ a b (by simpa using hen)]
    refine ⟨rfl, rfl, rfl⟩
  | caret =>
    have hred : processGlyph full st (p, ch) =
        try_pair_en full st p ch := by
      simp only [processGlyph, hslot, hno, hnc, hs]
      simp [hne, hen]
    rw [hred, try_pair_en_full _ _ _ _ a b hen]
    refine ⟨rfl, rfl, rfl⟩
  | opener zp zc =>
    have hred : processGlyph full st (p, ch) =
        try_pair_en full st p ch := by
      simp only [processGlyph, hslot, hno, hnc, hs]
      simp [hne, hen]
    rw [hred, try_pair_en_full _ _ _ _ a b hen]
    refine ⟨rfl, rfl, rfl⟩

/-- Closed witness for C4 at a concrete state and glyph. -/
theorem c4_displacement_witness :
    (processGlyph tC4 stC4 (5, STRAIGHT_DOUBLE)).pairs =
      stC4.pairs ++
        [mkEnPair tC4 (1, STRAIGHT_DOUBLE) (3, STRAIGHT_SINGLE) Lang.zh] ∧
    (processGlyph tC4 stC4 (5, STRAIGHT_DOUBLE)).cur.en_stack =
      [(5, STRAIGHT_DOUBLE)] ∧
    (processGlyph tC4 stC4 (5, STRAIGHT_DOUBLE)).unpaired = stC4.unpaired :=
  c4_displacement tC4 stC4 5 STRAIGHT_DOUBLE (1, STRAIGHT_DOUBLE)
    (3, STRAIGHT_SINGLE) rfl (Or.inl ⟨rfl, rfl⟩) (Or.inl rfl) (Or.inl rfl)

/-! ### Engine helpers -/

theorem splitOnNl_no_nl {t : List Char} (h : '\n' ∉ t) :
    splitOnNl t = [t] := by
  induction t with
  | nil => rfl
  | cons c rest ih =>
    have hc : ¬(c = '\n') := fun hc => h (by simp [hc])
    have hr : '\n' ∉ rest := fun hm => h (by simp [hm])
    simp only [splitOnNl, if_neg hc, ih hr]

theorem lineno_one {t : List Char} (h : '\n' ∉ t) (p : Nat) :
    _pos_to_lineno_from_text t p = 1 := by
  unfold _pos_to_lineno_from_text
  have hf : (t.take p).filter (fun c => decide (c = '\n')) = [] := by
    rw [List.filter_eq_nil]
    intro a ha
    have : a ∈ t := List.take_subset p t ha
    simp only [decide_eq_true_eq]
    intro heq
    exact h (heq ▸ this)
  rw [hf]
  rfl

theorem warnLayer_targets (full : List Char) (layer : StackB) :
    warnLayer full layer =
      (warnTargets layer).map (fun e => mkWarn full e.1 e.2 true) := by
  unfold warnLayer warnTargets
  rw [List.map_append]
  congr 1
  cases layer.zh_slot <;> rfl

theorem finalize_characterization (full : List Char) (cur : StackB)
    (meta : List StackB) (ps : List QuotePair) (us : List UnpairedQuote) :
    finalizeQueue full ⟨cur, meta, ps, us⟩ =
      ⟨cur, meta, ps,
       us ++ (warnTargets cur ++ meta.flatMap warnTargets).map
         (fun e => mkWarn full e.1 e.2 true)⟩ := by
  unfold finalizeQueue
  have hmeta : meta.flatMap (warnLayer full) =
      (meta.flatMap warnTargets).map (fun e => mkWarn full e.1 e.2 true) := by
    induction meta with
    | nil => rfl
    | cons l r ih =>
      simp only [List.flatMap_cons, warnLayer_targets, ih, List.map_append]
  simp only [hmeta, warnLayer_targets, List.map_append, List.append_assoc]

/-! ### C5 -/

/-- C5: a single-paragraph text whose only quote glyph is one curly
opener yields exactly one unresolved warning at that offset (an
unclosed opener on line 1) and no Quote Pairs; and paragraph-end
cleanup reports exactly the buffered ambiguous glyphs and the real
openers of the active frame and each suspended frame, all as
unclosed, while caret placeholders and vacant slots are never
reported. -/
theorem c5_unclosed_opener :
    (∀ (t : List Char) (p : Nat) (op : Char), '\n' ∉ t →
      (op = ZH_DQUOTE_OPEN ∨ op = ZH_SQUOTE_OPEN) →
      para_queue t 0 = [(p, op)] →
      pair_quotes_by_paragraph t = ([], [⟨p, op, true, 1⟩])) ∧
    (∀ (full : List Char) (cur : StackB) (meta : List StackB)
       (ps : List QuotePair) (us : List UnpairedQuote),
      finalizeQueue full ⟨cur, meta, ps, us⟩ =
        ⟨cur, meta, ps,
         us ++ (warnTargets cur ++ meta.flatMap warnTargets).map
           (fun e => mkWarn full e.1 e.2 true)⟩) := by
  refine ⟨?_, finalize_characterization⟩
  intro t p op hnl hop hq
  have hg : processGlyph t ⟨newStackB, [], [], []⟩ (p, op) =
      ⟨⟨ZhSlot.opener p op, []⟩, [], [], []⟩ := by
    rcases hop with rfl | rfl <;> rfl
  have hpq : process_queue t [] [] [(p, op)] =
      ([], [⟨p, op, true, 1⟩]) := by
    unfold process_queue
    simp only [List.foldl_cons, List.foldl_nil, hg]
    rw [finalize_characterization]
    simp [warnTargets, mkWarn, lineno_one hnl]
  unfold pair_quotes_by_paragraph
  rw [splitOnNl_no_nl hnl]
  simp only [pq_loop, hq]
  rw [if_neg (by simp)]
  simp only [hpq]

/-- Closed witness for C5 at a concrete paragraph and cleanup state. -/
theorem c5_unclosed_opener_witness :
    pair_quotes_by_paragraph tC5w =
      ([], [⟨2, ZH_DQUOTE_OPEN, true, 1⟩]) ∧
    finalizeQueue tC5w
        ⟨⟨ZhSlot.caret, [(0, STRAIGHT_DOUBLE)]⟩,
         [⟨ZhSlot.opener 1 ZH_DQUOTE_OPEN, []⟩], [], []⟩ =
      ⟨⟨ZhSlot.caret, [(0, STRAIGHT_DOUBLE)]⟩,
       [⟨ZhSlot.opener 1 ZH_DQUOTE_OPEN, []⟩], [],
       [] ++ (warnTargets ⟨ZhSlot.caret, [(0, STRAIGHT_DOUBLE)]⟩ ++
         [⟨ZhSlot.opener 1 ZH_DQUOTE_OPEN, []⟩].flatMap warnTargets).map
           (fun e => mkWarn tC5w e.1 e.2 true)⟩ :=
  ⟨c5_unclosed_opener.1 tC5w 2 ZH_DQUOTE_OPEN (by decide) (Or.inl rfl)
      (by decide),
   c5_unclosed_opener.2 tC5w ⟨ZhSlot.caret, [(0, STRAIGHT_DOUBLE)]⟩
      [⟨ZhSlot.opener 1 ZH_DQUOTE_OPEN, []⟩] [] []⟩

/-! ### C2 -/

/-- C2 counterexample: a single paragraph with exactly one curly
double open followed by its matching close and no other quote glyph,
but Latin-dominant content; both strategies emit Issues, refuting
the zero-Issues part of the claim as stated. -/
theorem c2_counterexample :
    ('\n' ∉ tC2) ∧
    para_queue tC2 0 = [(2, ZH_DQUOTE_OPEN), (14, ZH_DQUOTE_CLOSE)] ∧
    (check_quotes tC2 'A' Region.body).1 ≠ [] ∧
    (check_quotes tC2 'B' Region.body).1 ≠ [] := by
  refine ⟨by decide, by decide, by decide, by decide⟩

/-- C2 amended: a single-paragraph text whose quote glyphs are
exactly one curly double open then its matching close always resolves
to exactly that Quote Pair (language and bracket flag as the engine
computes them from the content and the closer); when additionally the
closing quote is not inside brackets and the enclosed content is
primary-dominant (or blank), both strategies emit zero Issues. -/
theorem c2_simple_pair (t : List Char) (p q : Nat)
    (hnl : '\n' ∉ t)
    (hq : para_queue t 0 = [(p, ZH_DQUOTE_OPEN), (q, ZH_DQUOTE_CLOSE)]) :
    pair_quotes_by_paragraph t =
      ([⟨p, q, ZH_DQUOTE_OPEN, ZH_DQUOTE_CLOSE, listSlice t (p + 1) q,
         if hasNonSpace (listSlice t (p + 1) q) = true then
           dominant_lang (listSlice t (p + 1) q) else Lang.zh,
         decide (0 < _bracket_depth_at t q)⟩], []) ∧
    (_bracket_depth_at t q = 0 →
      (hasNonSpace (listSlice t (p + 1) q) = true →
        dominant_lang (listSlice t (p + 1) q) = Lang.zh) →
      check_quotes t 'A' Region.body = ([], []) ∧
      check_quotes t 'B' Region.body = ([], [])) := by
  have hg1 : processGlyph t ⟨newStackB, [], [], []⟩ (p, ZH_DQUOTE_OPEN) =
      ⟨⟨ZhSlot.opener p ZH_DQUOTE_OPEN, []⟩, [], [], []⟩ := rfl
  have hg2 : processGlyph t ⟨⟨ZhSlot.opener p ZH_DQUOTE_OPEN, []⟩, [], [], []⟩
      (q, ZH_DQUOTE_CLOSE) =
      ⟨newStackB, [],
       [⟨p, q, ZH_DQUOTE_OPEN, ZH_DQUOTE_CLOSE, listSlice t (p + 1) q,
         if hasNonSpace (listSlice t (p + 1) q) = true then
           dominant_lang (listSlice t (p + 1) q) else Lang.zh,
         decide (0 < _bracket_depth_at t q)⟩], []⟩ := by
    have hstep : processGlyph t
        ⟨⟨ZhSlot.opener p ZH_DQUOTE_OPEN, []⟩, [], [], []⟩
        (q, ZH_DQUOTE_CLOSE) =
        handleKnownClose t
          ⟨⟨ZhSlot.opener p ZH_DQUOTE_OPEN, []⟩, [], [], []⟩ q
          ZH_DQUOTE_CLOSE (decide (0 < _bracket_depth_at t q)) := rfl
    rw [hstep]
    unfold handleKnownClose popMeta
    rfl
  have hpq : pair_quotes_by_paragraph t =
      ([⟨p, q, ZH_DQUOTE_OPEN, ZH_DQUOTE_CLOSE, listSlice t (p + 1) q,
         if hasNonSpace (listSlice t (p + 1) q) = true then
           dominant_lang (listSlice t (p + 1) q) else Lang.zh,
         decide (0 < _bracket_depth_at t q)⟩], []) := by
    unfold pair_quotes_by_paragraph
    rw [splitOnNl_no_nl hnl]
    simp only [pq_loop, hq]
    rw [if_neg (by simp)]
    unfold process_queue
    simp only [List.foldl_cons, List.foldl_nil, hg1, hg2]
    rw [finalize_characterization]
    simp [warnTargets, newStackB]
  refine ⟨hpq, fun hbrk hlang => ?_⟩
  have hlz : (if hasNonSpace (listSlice t (p + 1) q) = true then
      dominant_lang (listSlice t (p + 1) q) else Lang.zh) = Lang.zh := by
    rcases hc : hasNonSpace (listSlice t (p + 1) q) with _ | _
    · simp [hc]
    · simp [hc, hlang hc]
  constructor
  · unfold check_quotes
    rw [hpq]
    simp [quotePairStep, decide_correct_quote_form, hbrk, hlz]
  · unfold check_quotes
    rw [hpq]
    simp only [List.foldl_cons, List.foldl_nil]
    simp [quotePairStep, decide_correct_quote_form, hbrk, hlz]

/-- Closed witness for the amended C2 at a concrete paragraph,
exercising the unconditional pair-resolution half and, with its
hypotheses discharged, the zero-Issues half. -/
theorem c2_simple_pair_witness :
    pair_quotes_by_paragraph tC2w =
      ([⟨2, 7, ZH_DQUOTE_OPEN, ZH_DQUOTE_CLOSE, listSlice tC2w 3 7,
         if hasNonSpace (listSlice tC2w 3 7) = true then
           dominant_lang (listSlice tC2w 3 7) else Lang.zh,
         decide (0 < _bracket_depth_at tC2w 7)⟩], []) ∧
    check_quotes tC2w 'A' Region.body = ([], []) ∧
    check_quotes tC2w 'B' Region.body = ([], []) := by
  obtain ⟨h1, h2⟩ := c2_simple_pair tC2w 2 7 (by decide) (by decide)
  exact ⟨h1, h2 (by decide) (fun _ => by decide)⟩

/-! ### C1 helpers: every pair the engine appends satisfies
PairContentLang -/

theorem mkEnPair_content_lang (full : List Char) (a b : Nat × Char)
    (d : Lang) : PairContentLang (mkEnPair full a b d) := by
  intro h
  exact if_pos h

theorem popMeta_pairs (st : QState) : (popMeta st).pairs = st.pairs := by
  unfold popMeta
  split <;> rfl

theorem popMeta_unpaired (st : QState) :
    (popMeta st).unpaired = st.unpaired := by
  unfold popMeta
  split <;> rfl

theorem try_pair_en_pairs_sub (full : List Char) (st : QState) (p : Nat)
    (ch : Char) (P0 : List QuotePair) (hP0 : st.pairs = P0) :
    ∀ pr ∈ (try_pair_en full st p ch).pairs,
      pr ∈ P0 ∨ PairContentLang pr := by
  subst hP0
  intro pr hpr
  rcases hen : st.cur.en_stack with _ | ⟨e0, _ | ⟨e1, _ | ⟨e2, rest⟩⟩⟩ <;>
    simp only [try_pair_en, hen, List.nil_append, List.cons_append] at hpr
  · exact Or.inl hpr
  · split at hpr
    · rcases List.mem_append.mp hpr with h | h
      · exact Or.inl h
      · rcases List.mem_singleton.mp h with rfl
        exact Or.inr (mkEnPair_content_lang _ _ _ _)
    · exact Or.inl hpr
  · rcases List.mem_append.mp hpr with h | h
    · exact Or.inl h
    · rcases List.mem_singleton.mp h with rfl
      exact Or.inr (mkEnPair_content_lang _ _ _ _)
  · exact Or.inl hpr

theorem handleKnownClose_pairs_sub (full : List Char) (st : QState)
    (abs_pos : Nat) (ch : Char) (in_brk : Bool) (P0 : List QuotePair)
    (hP0 : st.pairs = P0) :
    ∀ pr ∈ (handleKnownClose full st abs_pos ch in_brk).pairs,
      pr ∈ P0 ∨ PairContentLang pr := by
  subst hP0
  intro pr hpr
  unfold handleKnownClose at hpr
  rw [popMeta_pairs] at hpr
  cases hslot : st.cur.zh_slot with
  | vacant =>
    simp only [hslot] at hpr
    exact Or.inl hpr
  | caret =>
    simp only [hslot] at hpr
    exact Or.inl hpr
  | opener zp zc =>
    simp only [hslot] at hpr
    split at hpr
    · split at hpr
      · exact Or.inl hpr
      · rcases List.mem_append.mp hpr with h | h
        · exact Or.inl h
        · rcases List.mem_singleton.mp h with rfl
          exact Or.inr (fun hh => if_pos hh)
    · split at hpr
      · exact Or.inl hpr
      · rcases List.mem_append.mp hpr with h | h
        · exact Or.inl h
        · rcases List.mem_singleton.mp h with rfl
          exact Or.inr (fun hh => if_pos hh)

theorem processGlyph_pairs_sub (full : List Char) (st : QState)
    (g : Nat × Char) :
    ∀ pr ∈ (processGlyph full st g).pairs,
      pr ∈ st.pairs ∨ PairContentLang pr := by
  intro pr hpr
  simp only [processGlyph] at hpr
  repeat' split at hpr
  all_goals
    first
      | exact Or.inl hpr
      | exact try_pair_en_pairs_sub full _ g.1 g.2 st.pairs (by rfl) pr hpr
      | exact handleKnownClose_pairs_sub full _ g.1 g.2 _ st.pairs (by rfl)
          pr hpr

theorem foldl_pairs_sub (full : List Char) (queue : List (Nat × Char)) :
    ∀ (st : QState),
      ∀ pr ∈ (queue.foldl (processGlyph full) st).pairs,
        pr ∈ st.pairs ∨ PairContentLang pr := by
  induction queue with
  | nil => intro st pr hpr; exact Or.inl hpr
  | cons g rest ih =>
    intro st pr hpr
    simp only [List.foldl_cons] at hpr
    rcases ih (processGlyph full st g) pr hpr with h | h
    · exact processGlyph_pairs_sub full st g pr h
    · exact Or.inr h

theorem process_queue_pairs_sub (full : List Char) (ps : List QuotePair)
    (us : List UnpairedQuote) (queue : List (Nat × Char)) :
    ∀ pr ∈ (process_queue full ps us queue).1,
      pr ∈ ps ∨ PairContentLang pr := by
  intro pr hpr
  unfold process_queue at hpr
  exact foldl_pairs_sub full queue ⟨newStackB, [], ps, us⟩ pr hpr

theorem pq_loop_pairs_sub (full : List Char) (paras : List (List Char)) :
    ∀ (off : Nat) (ps : List QuotePair) (us : List UnpairedQuote),
      ∀ pr ∈ (pq_loop full paras off ps us).1,
        pr ∈ ps ∨ PairContentLang pr := by
  induction paras with
  | nil => intro off ps us pr hpr; exact Or.inl hpr
  | cons para rest ih =>
    intro off ps us pr hpr
    simp only [pq_loop] at hpr
    rcases ih _ _ _ pr hpr with h | h
    · by_cases hq : para_queue para off = []
      · rw [if_pos hq] at h
        exact Or.inl h
      · rw [if_neg hq] at h
        exact process_queue_pairs_sub full ps us _ pr h
    · exact Or.inr h

/-! ### C1 -/

/-- C1 counterexample: in a primary-dominant paragraph (its text
outside the quotes is entirely ideographic) the resolved pair
records the Latin language of its own content as sentence_lang, and
strategy A therefore picks straight quotes, not the primary curly
quotes the claim predicts for a primary-dominant surrounding
sentence. -/
theorem c1_counterexample :
    pair_quotes_by_paragraph tC1 =
      ([⟨4, 7, ZH_DQUOTE_OPEN, ZH_DQUOTE_CLOSE, ['a', 'b'], Lang.en, false⟩],
       []) ∧
    dominant_lang tC1 = Lang.zh ∧
    dominant_lang (strL "中中中中" ++ strL "中中中中") = Lang.zh ∧
    decide_correct_quote_form
      ⟨4, 7, ZH_DQUOTE_OPEN, ZH_DQUOTE_CLOSE, ['a', 'b'], Lang.en, false⟩
      'A' = (STRAIGHT_DOUBLE, STRAIGHT_DOUBLE) := by
  refine ⟨by decide, by decide, by decide, by decide⟩

/-- C1 amended: every resolved Quote Pair with classifiable content
records the dominant script of its own enclosed content as
sentence_lang, and under strategy A a pair outside brackets gets the
primary curly quotes exactly when that recorded script is
primary. -/
theorem c1_pair_records_content_lang :
    (∀ (full : List Char), ∀ pr ∈ (pair_quotes_by_paragraph full).1,
      hasNonSpace pr.content = true →
        pr.sentence_lang = dominant_lang pr.content) ∧
    (∀ pr : QuotePair, pr.in_brackets = false →
      (decide_correct_quote_form pr 'A' =
          (ZH_DQUOTE_OPEN, ZH_DQUOTE_CLOSE) ↔
        pr.sentence_lang = Lang.zh)) := by
  constructor
  · intro full pr hpr
    unfold pair_quotes_by_paragraph at hpr
    rcases pq_loop_pairs_sub full (splitOnNl full) 0 [] [] pr hpr with h | h
    · exact absurd h (List.not_mem_nil pr)
    · exact h
  · intro pr hbrk
    constructor
    · intro h
      cases hsl : pr.sentence_lang with
      | zh => rfl
      | en =>
        rw [show decide_correct_quote_form pr 'A' =
            (STRAIGHT_DOUBLE, STRAIGHT_DOUBLE) from by
          simp [decide_correct_quote_form, hbrk, hsl]] at h
        exact absurd h (by decide)
    · intro h
      simp [decide_correct_quote_form, hbrk, h]

/-! ### C3 helpers: per-line detectors point at their own line -/

theorem _check_period_fields {ch : Char} {pos ln : Nat} {l : List Char}
    {lang : Lang} {reg : Region} {iss : Issue}
    (h : _check_period ch pos ln l lang reg = some iss) :
    iss.col_no = pos ∧ iss.char = ch ∧ iss.line_no = ln := by
  unfold _check_period at h
  repeat' split at h
  all_goals
    first
      | (rcases Option.some.inj h with rfl; exact ⟨rfl, rfl, rfl⟩)
      | cases h

theorem check_single_fields {ch : Char} {pos ln : Nat} {l : List Char}
    {lang : Lang} {reg : Region} {iss : Issue}
    (h : check_single_punct_for_lang ch pos ln l lang reg = some iss) :
    iss.col_no = pos ∧ iss.char = ch ∧ iss.line_no = ln := by
  unfold check_single_punct_for_lang at h
  repeat' split at h
  all_goals
    first
      | (rcases Option.some.inj h with rfl; exact ⟨rfl, rfl, rfl⟩)
      | exact _check_period_fields h
      | cases h

theorem scan_issue_good (l : List Char) (ln : Nat) (lang : Lang)
    (reg : Region) :
    ∀ iss ∈ l.enum.filterMap (fun ic =>
        if ic.2 ∈ SKIP_IN_CHAR_SCAN then none
        else check_single_punct_for_lang ic.2 ic.1 ln l lang reg),
      l.get? iss.col_no = some iss.char ∧ iss.line_no = ln := by
  intro iss hiss
  rcases List.mem_filterMap.mp hiss with ⟨⟨i, c⟩, hic, hf⟩
  split at hf
  · cases hf
  · rcases check_single_fields hf with ⟨h1, h2, h3⟩
    refine ⟨?_, h3⟩
    rw [h1, h2, List.get?_eq_getElem?]
    exact List.mem_enum_iff_getElem?.mp hic

theorem fbpStep_good {l : List Char}
    {s : List (Nat × Char) × List BPair} (hs : FbpGood l s)
    {e : Nat × Char} (he : l.get? e.1 = some e.2) :
    FbpGood l (fbpStep l s e) := by
  unfold fbpStep
  split
  · refine ⟨fun x hx => ?_, hs.2⟩
    rcases List.mem_cons.mp hx with rfl | hx
    · exact he
    · exact hs.1 x hx
  · split
    · split
      · exact hs
      · next op oc st heq =>
        refine ⟨fun x hx =>
          hs.1 x (by rw [heq]; exact List.mem_cons_of_mem _ hx), ?_⟩
        intro pr hpr
        rcases List.mem_append.mp hpr with h | h
        · exact hs.2 pr h
        · rcases List.mem_singleton.mp h with rfl
          exact ⟨hs.1 (op, oc) (by rw [heq]; exact List.mem_cons_self _ _),
            he⟩
    · exact hs

theorem find_bracket_pairs_good (l : List Char) :
    ∀ pr ∈ find_bracket_pairs l,
      l.get? pr.open_pos = some pr.open_ch ∧
      l.get? pr.close_pos = some pr.close_ch := by
  have hinv : ∀ (es : List (Nat × Char)) s, FbpGood l s →
      (∀ e ∈ es, l.get? e.1 = some e.2) →
      FbpGood l (es.foldl (fbpStep l) s) := by
    intro es
    induction es with
    | nil => intro s hs _; exact hs
    | cons e t ih =>
      intro s hs hes
      exact ih _ (fbpStep_good hs (hes e (by simp)))
        (fun x hx => hes x (by simp [hx]))
  intro pr hpr
  have hgood := hinv l.enum ([], [])
    ⟨fun x hx => absurd hx (List.not_mem_nil x),
     fun x hx => absurd hx (List.not_mem_nil x)⟩
    (fun e he => by
      rw [List.get?_eq_getElem?]
      exact List.mem_enum_iff_getElem?.mp he)
  exact hgood.2 pr hpr

theorem check_brackets_good (l : List Char) (ln : Nat) (reg : Region) :
    ∀ iss ∈ check_brackets l ln reg,
      l.get? iss.col_no = some iss.char ∧ iss.line_no = ln := by
  intro iss hiss
  simp only [check_brackets, List.mem_flatMap] at hiss
  rcases hiss with ⟨pr, hpr, hiss⟩
  rcases find_bracket_pairs_good l pr hpr with ⟨ho, hc⟩
  rcases List.mem_append.mp hiss with h | h <;>
    rw [List.mem_ite_nil_right] at h <;>
    rcases h with ⟨-, h⟩ <;> rcases List.mem_singleton.mp h with rfl
  · exact ⟨ho, rfl⟩
  · exact ⟨hc, rfl⟩

theorem check_body_line_good (l : List Char) (ln : Nat) :
    ∀ iss ∈ check_body_line l ln,
      l.get? iss.col_no = some iss.char ∧ iss.line_no = ln := by
  intro iss hiss
  unfold check_body_line at hiss
  rcases List.mem_append.mp hiss with h | h
  · exact scan_issue_good l ln _ Region.body iss h
  · exact check_brackets_good l ln Region.body iss h

theorem check_ref_entry_good (e : List Char) (ln : Nat) :
    ∀ iss ∈ check_ref_entry e ln, iss.is_warning = false →
      e.get? iss.col_no = some iss.char ∧ iss.line_no = ln := by
  intro iss hiss hw
  simp only [check_ref_entry] at hiss
  split at hiss
  · rcases List.mem_singleton.mp hiss with rfl
    cases hw
  · exact scan_issue_good e ln _ Region.refs iss hiss

/-- Closed witness for the amended C1 at the concrete tC1 pair. -/
theorem c1_pair_records_content_lang_witness :
    (⟨4, 7, ZH_DQUOTE_OPEN, ZH_DQUOTE_CLOSE, ['a', 'b'], Lang.en, false⟩ :
        QuotePair).sentence_lang =
      dominant_lang
        (⟨4, 7, ZH_DQUOTE_OPEN, ZH_DQUOTE_CLOSE, ['a', 'b'], Lang.en,
          false⟩ : QuotePair).content ∧
    (decide_correct_quote_form
        ⟨2, 7, ZH_DQUOTE_OPEN, ZH_DQUOTE_CLOSE, listSlice tC2w 3 7, Lang.zh,
          false⟩ 'A' = (ZH_DQUOTE_OPEN, ZH_DQUOTE_CLOSE) ↔
      (⟨2, 7, ZH_DQUOTE_OPEN, ZH_DQUOTE_CLOSE, listSlice tC2w 3 7, Lang.zh,
          false⟩ : QuotePair).sentence_lang = Lang.zh) :=
  ⟨c1_pair_records_content_lang.1 tC1
      ⟨4, 7, ZH_DQUOTE_OPEN, ZH_DQUOTE_CLOSE, ['a', 'b'], Lang.en, false⟩
      (by decide) (by decide),
   c1_pair_records_content_lang.2
      ⟨2, 7, ZH_DQUOTE_OPEN, ZH_DQUOTE_CLOSE, listSlice tC2w 3 7, Lang.zh,
        false⟩ rfl⟩

/-! ### C3 helpers: quote-engine occurrences are characters of the
body text -/

theorem newStackB_good (full : List Char) : StBGood full newStackB :=
  ⟨fun x hx => absurd hx (List.not_mem_nil x), fun _ _ h => by cases h⟩

theorem QSGood_setSlotOpener (full : List Char) (st : QState) (p : Nat)
    (ch : Char) (hst : QSGood full st) (hg : GoodE full (p, ch)) :
    QSGood full
      { st with cur := { st.cur with zh_slot := ZhSlot.opener p ch } } := by
  obtain ⟨⟨hen, _⟩, hmeta, hpairs, hun⟩ := hst
  exact ⟨⟨hen, fun zp zc h => by cases h; exact hg⟩, hmeta, hpairs, hun⟩

theorem QSGood_setCaret (full : List Char) (st : QState)
    (hst : QSGood full st) :
    QSGood full
      { st with cur := { st.cur with zh_slot := ZhSlot.caret } } := by
  obtain ⟨⟨hen, _⟩, hmeta, hpairs, hun⟩ := hst
  exact ⟨⟨hen, fun _ _ h => by cases h⟩, hmeta, hpairs, hun⟩

theorem QSGood_warn (full : List Char) (st : QState) (pos : Nat) (ch : Char)
    (b : Bool) (hst : QSGood full st) (hg : GoodE full (pos, ch)) :
    QSGood full
      { st with unpaired := st.unpaired ++ [mkWarn full pos ch b] } := by
  obtain ⟨hcur, hmeta, hpairs, hun⟩ := hst
  refine ⟨hcur, hmeta, hpairs, fun u hu => ?_⟩
  rcases List.mem_append.mp hu with h | h
  · exact hun u h
  · rcases List.mem_singleton.mp h with rfl
    exact hg

theorem QSGood_warn2 (full : List Char) (st : QState) (p1 : Nat) (c1 : Char)
    (b1 : Bool) (p2 : Nat) (c2 : Char) (b2 : Bool) (hst : QSGood full st)
    (hg1 : GoodE full (p1, c1)) (hg2 : GoodE full (p2, c2)) :
    QSGood full
      { st with unpaired := st.unpaired ++
          [mkWarn full p1 c1 b1, mkWarn full p2 c2 b2] } := by
  obtain ⟨hcur, hmeta, hpairs, hun⟩ := hst
  refine ⟨hcur, hmeta, hpairs, fun u hu => ?_⟩
  rcases List.mem_append.mp hu with h | h
  · exact hun u h
  · rcases List.mem_cons.mp h with rfl | h
    · exact hg1
    · rcases List.mem_singleton.mp h with rfl
      exact hg2

theorem QSGood_clear (full : List Char) (st : QState)
    (hst : QSGood full st) :
    QSGood full
      { st with
        unpaired := st.unpaired ++
          st.cur.en_stack.map (fun e => mkWarn full e.1 e.2 true)
        cur := { st.cur with en_stack := [] } } := by
  obtain ⟨⟨hen, hslot⟩, hmeta, hpairs, hun⟩ := hst
  refine ⟨⟨fun x hx => absurd hx (List.not_mem_nil x), hslot⟩, hmeta, hpairs,
    fun u hu => ?_⟩
  rcases List.mem_append.mp hu with h | h
  · exact hun u h
  · rcases List.mem_map.mp h with ⟨e, he, rfl⟩
    exact hen e he

theorem QSGood_push (full : List Char) (st : QState) (p : Nat) (ch : Char)
    (hst : QSGood full st) (hg : GoodE full (p, ch)) :
    QSGood full
      { st with meta := st.cur :: st.meta
                cur := { newStackB with zh_slot := ZhSlot.opener p ch } } := by
  obtain ⟨hcur, hmeta, hpairs, hun⟩ := hst
  refine ⟨⟨fun x hx => absurd hx (List.not_mem_nil x),
    fun zp zc h => by cases h; exact hg⟩, fun b hb => ?_, hpairs, hun⟩
  rcases List.mem_cons.mp hb with rfl | hb
  · exact hcur
  · exact hmeta b hb

theorem try_pair_en_good (full : List Char) (st : QState) (p : Nat)
    (ch : Char) (hst : QSGood full st) (hg : GoodE full (p, ch)) :
    QSGood full (try_pair_en full st p ch) := by
  obtain ⟨⟨hen, hslot⟩, hmeta, hpairs, hun⟩ := hst
  rcases hen' : st.cur.en_stack with _ | ⟨e0, _ | ⟨e1, _ | ⟨e2, rest⟩⟩⟩ <;>
    simp only [try_pair_en, hen', List.nil_append, List.cons_append]
  · exact ⟨⟨fun x hx => by rcases List.mem_singleton.mp hx with rfl; exact hg,
      hslot⟩, hmeta, hpairs, hun⟩
  · have he0 : GoodE full e0 := hen e0 (by rw [hen']; simp)
    split
    · refine ⟨⟨fun x hx => absurd hx (List.not_mem_nil x), hslot⟩, hmeta,
        fun pr hpr => ?_, hun⟩
      rcases List.mem_append.mp hpr with h | h
      · exact hpairs pr h
      · rcases List.mem_singleton.mp h with rfl
        exact ⟨he0, hg⟩
    · refine ⟨⟨fun x hx => ?_, hslot⟩, hmeta, hpairs, hun⟩
      rcases List.mem_cons.mp hx with rfl | hx
      · exact he0
      · rcases List.mem_singleton.mp hx with rfl
        exact hg
  · have he0 : GoodE full e0 := hen e0 (by rw [hen']; simp)
    have he1 : GoodE full e1 := hen e1 (by rw [hen']; simp)
    refine ⟨⟨fun x hx => by rcases List.mem_singleton.mp hx with rfl; exact hg,
      hslot⟩, hmeta, fun pr hpr => ?_, hun⟩
    rcases List.mem_append.mp hpr with h | h
    · exact hpairs pr h
    · rcases List.mem_singleton.mp h with rfl
      exact ⟨he0, he1⟩
  · refine ⟨⟨fun x hx => ?_, hslot⟩, hmeta, hpairs, hun⟩
    have hx' : x ∈ st.cur.en_stack ++ [(p, ch)] := by
      rw [hen']
      simpa using hx
    rcases List.mem_append.mp hx' with h | h
    · exact hen x h
    · rcases List.mem_singleton.mp h with rfl
      exact hg

theorem popMeta_good (full : List Char) (st : QState)
    (hst : QSGood full st) : QSGood full (popMeta st) := by
  obtain ⟨hcur, hmeta, hpairs, hun⟩ := hst
  unfold popMeta
  split
  · exact ⟨newStackB_good full, hmeta, hpairs, hun⟩
  · next m ms heq =>
    exact ⟨hmeta m (by rw [heq]; exact List.mem_cons_self _ _),
      fun b hb => hmeta b (by rw [heq]; exact List.mem_cons_of_mem _ hb),
      hpairs, hun⟩

theorem handleKnownClose_good (full : List Char) (st : QState)
    (abs_pos : Nat) (ch : Char) (in_brk : Bool) (hst : QSGood full st)
    (hg : GoodE full (abs_pos, ch)) :
    QSGood full (handleKnownClose full st abs_pos ch in_brk) := by
  unfold handleKnownClose
  apply popMeta_good
  obtain ⟨⟨hen, hslot⟩, hmeta, hpairs, hun⟩ := hst
  cases hslot' : st.cur.zh_slot with
  | vacant =>
    simp only [hslot']
    exact ⟨⟨hen, hslot⟩, hmeta, hpairs, hun⟩
  | caret =>
    simp only [hslot']
    exact QSGood_warn full st abs_pos ch false ⟨⟨hen, hslot⟩, hmeta, hpairs,
      hun⟩ hg
  | opener zp zc =>
    simp only [hslot']
    have hzc : GoodE full (zp, zc) := hslot zp zc hslot'
    split <;> split
    · exact QSGood_warn2 full st abs_pos ch false zp zc true
        ⟨⟨hen, hslot⟩, hmeta, hpairs, hun⟩ hg hzc
    · refine ⟨⟨hen, hslot⟩, hmeta, fun pr hpr => ?_, hun⟩
      rcases List.mem_append.mp hpr with h | h
      · exact hpairs pr h
      · rcases List.mem_singleton.mp h with rfl
        exact ⟨hzc, hg⟩
    · exact QSGood_warn2 full st abs_pos ch false zp zc true
        ⟨⟨hen, hslot⟩, hmeta, hpairs, hun⟩ hg hzc
    · refine ⟨⟨hen, hslot⟩, hmeta, fun pr hpr => ?_, hun⟩
      rcases List.mem_append.mp hpr with h | h
      · exact hpairs pr h
      · rcases List.mem_singleton.mp h with rfl
        exact ⟨hzc, hg⟩

theorem processGlyph_good (full : List Char) (st : QState) (g : Nat × Char)
    (hst : QSGood full st) (hg : GoodE full g) :
    QSGood full (processGlyph full st g) := by
  simp only [processGlyph]
  repeat' split
  all_goals
    first
      | exact hst
      | exact QSGood_setSlotOpener full st g.1 g.2 hst hg
      | exact QSGood_warn full st g.1 g.2 false hst hg
      | exact try_pair_en_good full _ g.1 g.2 (QSGood_setCaret full st hst) hg
      | exact try_pair_en_good full _ g.1 g.2 hst hg
      | exact try_pair_en_good full _ g.1 g.2 (QSGood_clear full st hst) hg
      | exact handleKnownClose_good full _ g.1 g.2 _ hst hg
      | exact handleKnownClose_good full _ g.1 g.2 _
          (QSGood_clear full st hst) hg
      | exact QSGood_push full st g.1 g.2 hst hg
      | exact QSGood_push full _ g.1 g.2 (QSGood_clear full st hst) hg
      | exact QSGood_clear full st hst

theorem warnLayer_good (full : List Char) (b : StackB)
    (hb : StBGood full b) :
    ∀ u ∈ warnLayer full b, GoodE full (u.pos, u.char) := by
  intro u hu
  unfold warnLayer at hu
  rcases List.mem_append.mp hu with h | h
  · rcases List.mem_map.mp h with ⟨e, he, rfl⟩
    exact hb.1 e he
  · cases hsl : b.zh_slot with
    | vacant =>
      simp only [hsl] at h
      exact absurd h (List.not_mem_nil u)
    | caret =>
      simp only [hsl] at h
      exact absurd h (List.not_mem_nil u)
    | opener zp zc =>
      simp only [hsl] at h
      rcases List.mem_singleton.mp h with rfl
      exact hb.2 zp zc hsl

theorem finalize_good (full : List Char) (st : QState)
    (hst : QSGood full st) : QSGood full (finalizeQueue full st) := by
  obtain ⟨hcur, hmeta, hpairs, hun⟩ := hst
  refine ⟨hcur, hmeta, hpairs, fun u hu => ?_⟩
  rcases List.mem_append.mp hu with h | h
  · rcases List.mem_append.mp h with h2 | h2
    · exact hun u h2
    · exact warnLayer_good full st.cur hcur u h2
  · rcases List.mem_flatMap.mp h with ⟨b, hb, h2⟩
    exact warnLayer_good full b (hmeta b hb) u h2

theorem para_queue_good (full para : List Char) (off : Nat)
    (hseg : ∀ i, i < para.length → full.get? (off + i) = para.get? i) :
    ∀ e ∈ para_queue para off, GoodE full e := by
  intro e he
  unfold para_queue at he
  rcases List.mem_filterMap.mp he with ⟨⟨i, c⟩, hic, hf⟩
  split at hf
  · rcases Option.some.inj hf with rfl
    have hlt : i < para.length := mem_enum_fst_lt hic
    have hp : para.get? i = some c := by
      rw [List.get?_eq_getElem?]
      exact List.mem_enum_iff_getElem?.mp hic
    show full.get? (off + i) = some c
    rw [hseg i hlt, hp]
  · cases hf

theorem process_queue_good (full : List Char) (ps : List QuotePair)
    (us : List UnpairedQuote) (queue : List (Nat × Char))
    (hps : ∀ pr ∈ ps, GoodE full (pr.open_pos, pr.open_char) ∧
      GoodE full (pr.close_pos, pr.close_char))
    (hus : ∀ u ∈ us, GoodE full (u.pos, u.char))
    (hq : ∀ g ∈ queue, GoodE full g) :
    (∀ pr ∈ (process_queue full ps us queue).1,
      GoodE full (pr.open_pos, pr.open_char) ∧
      GoodE full (pr.close_pos, pr.close_char)) ∧
    (∀ u ∈ (process_queue full ps us queue).2,
      GoodE full (u.pos, u.char)) := by
  have hfold : ∀ (es : List (Nat × Char)) (st : QState), QSGood full st →
      (∀ g ∈ es, GoodE full g) →
      QSGood full (es.foldl (processGlyph full) st) := by
    intro es
    induction es with
    | nil => intro st hst _; exact hst
    | cons g rest ih =>
      intro st hst hes
      exact ih _ (processGlyph_good full st g hst (hes g (by simp)))
        (fun x hx => hes x (by simp [hx]))
  have hres := finalize_good full _
    (hfold queue ⟨newStackB, [], ps, us⟩
      ⟨newStackB_good full, fun b hb => absurd hb (List.not_mem_nil b),
        hps, hus⟩ hq)
  exact ⟨hres.2.2.1, hres.2.2.2⟩

theorem splitOnNl_ne_nil (t : List Char) : splitOnNl t ≠ [] := by
  cases t with
  | nil => simp [splitOnNl]
  | cons c rest =>
    simp only [splitOnNl]
    split
    · simp
    · split <;> simp

theorem joinNl_split (t : List Char) : joinNl (splitOnNl t) = t := by
  induction t with
  | nil => rfl
  | cons c rest ih =>
    simp only [splitOnNl]
    split
    · next hc =>
      subst hc
      cases hsp : splitOnNl rest with
      | nil => exact absurd hsp (splitOnNl_ne_nil rest)
      | cons l ls =>
        rw [hsp] at ih
        show joinNl ([] :: l :: ls) = '\n' :: rest
        rw [show joinNl ([] :: l :: ls) = [] ++ '\n' :: joinNl (l :: ls)
          from rfl]
        rw [ih]
        rfl
    · next hc =>
      cases hsp : splitOnNl rest with
      | nil => exact absurd hsp (splitOnNl_ne_nil rest)
      | cons l ls =>
        rw [hsp] at ih
        simp only [hsp]
        have hj : joinNl ((c :: l) :: ls) = c :: joinNl (l :: ls) := by
          cases ls with
          | nil => rfl
          | cons y ys => rfl
        rw [hj, ih]

theorem drop_next (full para : List Char) (rest : List (List Char))
    (off : Nat) (hdrop : full.drop off = joinNl (para :: rest)) :
    full.drop (off + para.length + 1) = joinNl rest ∧
    (∀ i, i < para.length → full.get? (off + i) = para.get? i) := by
  have hget : ∀ i, full.get? (off + i) = (full.drop off).get? i := by
    intro i
    rw [List.get?_eq_getElem?, List.get?_eq_getElem?, List.getElem?_drop]
  have hdd : full.drop (off + para.length + 1) =
      (full.drop off).drop (para.length + 1) := by
    rw [List.drop_drop]
    exact congrArg (fun n => List.drop n full) (by omega)
  cases rest with
  | nil =>
    have hpara : full.drop off = para := by
      rw [hdrop]; rfl
    constructor
    · rw [hdd, hpara, List.drop_eq_nil_of_le (by omega)]
      rfl
    · intro i hi
      rw [hget i, hpara]
  | cons r rs =>
    have hpara : full.drop off = para ++ '\n' :: joinNl (r :: rs) := by
      rw [hdrop]; rfl
    constructor
    · rw [hdd, hpara, List.drop_append_eq_append_drop,
        List.drop_eq_nil_of_le (by omega), List.nil_append]
      have harith : para.length + 1 - para.length = 1 := by omega
      rw [harith]
      rfl
    · intro i hi
      rw [hget i, hpara, List.get?_eq_getElem?, List.get?_eq_getElem?,
        List.getElem?_append_left hi]

theorem pq_loop_good (full : List Char) (paras : List (List Char)) :
    ∀ (off : Nat) (ps : List QuotePair) (us : List UnpairedQuote),
      full.drop off = joinNl paras →
      (∀ pr ∈ ps, GoodE full (pr.open_pos, pr.open_char) ∧
        GoodE full (pr.close_pos, pr.close_char)) →
      (∀ u ∈ us, GoodE full (u.pos, u.char)) →
      (∀ pr ∈ (pq_loop full paras off ps us).1,
        GoodE full (pr.open_pos, pr.open_char) ∧
        GoodE full (pr.close_pos, pr.close_char)) ∧
      (∀ u ∈ (pq_loop full paras off ps us).2,
        GoodE full (u.pos, u.char)) := by
  induction paras with
  | nil => intro off ps us _ hps hus; exact ⟨hps, hus⟩
  | cons para rest ih =>
    intro off ps us hdrop hps hus
    obtain ⟨hnext, hseg⟩ := drop_next full para rest off hdrop
    have hqueue := para_queue_good full para off hseg
    simp only [pq_loop]
    by_cases hq : para_queue para off = []
    · rw [if_pos hq]
      exact ih _ _ _ hnext hps hus
    · rw [if_neg hq]
      obtain ⟨hps', hus'⟩ := process_queue_good full ps us
        (para_queue para off) hps hus hqueue
      exact ih _ _ _ hnext hps' hus'

theorem pair_quotes_good (full : List Char) :
    (∀ pr ∈ (pair_quotes_by_paragraph full).1,
      GoodE full (pr.open_pos, pr.open_char) ∧
      GoodE full (pr.close_pos, pr.close_char)) ∧
    (∀ u ∈ (pair_quotes_by_paragraph full).2,
      GoodE full (u.pos, u.char)) := by
  unfold pair_quotes_by_paragraph
  exact pq_loop_good full (splitOnNl full) 0 [] []
    (by rw [List.drop_zero, joinNl_split])
    (fun pr hpr => absurd hpr (List.not_mem_nil pr))
    (fun u hu => absurd hu (List.not_mem_nil u))

theorem check_quotes_col_good (full : List Char) (strat : Char)
    (reg : Region) :
    ∀ iss ∈ (check_quotes full strat reg).1,
      full.get? iss.col_no = some iss.char := by
  obtain ⟨hpairs, hups⟩ := pair_quotes_good full
  have hpfold : ∀ (prs : List QuotePair),
      (∀ pr ∈ prs, GoodE full (pr.open_pos, pr.open_char) ∧
        GoodE full (pr.close_pos, pr.close_char)) →
      ∀ (acc : List Issue × List QRep),
        (∀ i ∈ acc.1, full.get? i.col_no = some i.char) →
        ∀ i ∈ (prs.foldl (quotePairStep full strat reg) acc).1,
          full.get? i.col_no = some i.char := by
    intro prs
    induction prs with
    | nil => intro _ acc hacc i hi; exact hacc i hi
    | cons pr rest ih =>
      intro hprs acc hacc i hi
      simp only [List.foldl_cons] at hi
      refine ih (fun x hx => hprs x (by simp [hx])) _ ?_ i hi
      intro j hj
      obtain ⟨ho, hc⟩ := hprs pr (by simp)
      simp only [quotePairStep] at hj
      repeat' split at hj
      all_goals
        repeat
          first
            | exact hacc j hj
            | exact ho
            | exact hc
            | (rcases List.mem_append.mp hj with hj | hj)
            | (rcases List.mem_singleton.mp hj with rfl)
  have hwfold : ∀ (uqs : List UnpairedQuote),
      (∀ u ∈ uqs, GoodE full (u.pos, u.char)) →
      ∀ (acc : List Issue),
        (∀ i ∈ acc, full.get? i.col_no = some i.char) →
        ∀ i ∈ uqs.foldl (quoteWarnStep reg) acc,
          full.get? i.col_no = some i.char := by
    intro uqs
    induction uqs with
    | nil => intro _ acc hacc i hi; exact hacc i hi
    | cons uq rest ih =>
      intro huqs acc hacc i hi
      simp only [List.foldl_cons] at hi
      refine ih (fun x hx => huqs x (by simp [hx])) _ ?_ i hi
      intro j hj
      unfold quoteWarnStep at hj
      rcases List.mem_append.mp hj with h | h
      · exact hacc j h
      · rcases List.mem_singleton.mp h with rfl
        exact huqs uq (by simp)
  intro iss hiss
  unfold check_quotes at hiss
  exact hwfold _ hups _
    (hpfold _ hpairs ([], []) (fun i hi => absurd hi (List.not_mem_nil i)))
    iss hiss

/-! ### C3 -/

/-- C3 counterexample: the quote-engine warning for the lone curly
opener on line 2 of tC3 carries column 2, its absolute offset in the
body text; line 2 is a one-character line, so column 2 indexes no
character of the stated line at all. -/
theorem c3_counterexample :
    (check_quotes tC3 'A' Region.body).1 =
      [⟨2, 2, ZH_DQUOTE_OPEN, '?', Region.body, true⟩] ∧
    splitOnNl tC3 = [['a'], [ZH_DQUOTE_OPEN]] ∧
    ([ZH_DQUOTE_OPEN] : List Char).get? 2 = none := by
  refine ⟨by decide, by decide, by decide⟩

/-- C3 amended: every Issue of the per-line detectors (body-line scan
and brackets, reference-entry scans apart from the script-mismatch
warning) carries a column that indexes its stated line at the
offending character; Issues of the quote engine instead carry the
absolute offset into the body text as column, and the character at
that absolute offset is the offending char. -/
theorem c3_issue_columns :
    (∀ (l : List Char) (ln : Nat), ∀ iss ∈ check_body_line l ln,
      l.get? iss.col_no = some iss.char ∧ iss.line_no = ln) ∧
    (∀ (e : List Char) (ln : Nat), ∀ iss ∈ check_ref_entry e ln,
      iss.is_warning = false →
      e.get? iss.col_no = some iss.char ∧ iss.line_no = ln) ∧
    (∀ (full : List Char) (strat : Char) (reg : Region),
      ∀ iss ∈ (check_quotes full strat reg).1,
        full.get? iss.col_no = some iss.char) :=
  ⟨check_body_line_good, check_ref_entry_good, check_quotes_col_good⟩

/-! ### C6 -/

/-- C6: the linter is not idempotent on tC6.  The only first-run
finding is the auto-fixable ideographic full stop of the reference
entry (no warnings); applying it yields tC6fixed, and the second run
then reports a brand-new script-mismatch manual-review warning,
because the half-width period the fix itself introduced makes the
year-period title heuristic of detect_work_title_lang fire. -/
theorem c6_not_idempotent :
    process tC6 cfgC6 = ([⟨2, 10, '。', '.', Region.refs, false⟩], tC6fixed) ∧
    ([⟨2, 10, '。', '.', Region.refs, false⟩] : List Issue).filter
        (fun i => i.is_warning) = [] ∧
    (process tC6fixed cfgC6).1 = [⟨2, 0, '?', '?', Region.refs, true⟩] := by
  refine ⟨by decide, by decide, by decide⟩

/-! ### C9 helpers: sort membership and the absolute pass -/

theorem insertQRepDesc_mem {x r : QRep} {l : List QRep}
    (h : x ∈ insertQRepDesc r l) : x = r ∨ x ∈ l := by
  induction l with
  | nil =>
    unfold insertQRepDesc at h
    exact Or.inl (List.mem_singleton.mp h)
  | cons y ys ih =>
    unfold insertQRepDesc at h
    split at h
    · rcases List.mem_cons.mp h with rfl | h
      · exact Or.inl rfl
      · exact Or.inr h
    · rcases List.mem_cons.mp h with rfl | h
      · exact Or.inr (List.mem_cons_self _ _)
      · rcases ih h with h | h
        · exact Or.inl h
        · exact Or.inr (List.mem_cons_of_mem _ h)

theorem foldl_insertQRep_mem : ∀ (l acc : List QRep) {x : QRep},
    x ∈ l.foldl (fun a r => insertQRepDesc r a) acc → x ∈ acc ∨ x ∈ l := by
  intro l
  induction l with
  | nil => intro acc x h; exact Or.inl h
  | cons r rs ih =>
    intro acc x h
    simp only [List.foldl_cons] at h
    rcases ih _ h with h2 | h2
    · rcases insertQRepDesc_mem h2 with rfl | h3
      · exact Or.inr (List.mem_cons_self _ _)
      · exact Or.inl h3
    · exact Or.inr (List.mem_cons_of_mem _ h2)

theorem sortQRepsDesc_subset {x : QRep} {l : List QRep}
    (h : x ∈ sortQRepsDesc l) : x ∈ l := by
  rcases foldl_insertQRep_mem l [] h with h2 | h2
  · exact absurd h2 (List.not_mem_nil x)
  · exact h2

theorem insertIssueColDesc_mem {x r : Issue} {l : List Issue}
    (h : x ∈ insertIssueColDesc r l) : x = r ∨ x ∈ l := by
  induction l with
  | nil =>
    unfold insertIssueColDesc at h
    exact Or.inl (List.mem_singleton.mp h)
  | cons y ys ih =>
    unfold insertIssueColDesc at h
    split at h
    · rcases List.mem_cons.mp h with rfl | h
      · exact Or.inl rfl
      · exact Or.inr h
    · rcases List.mem_cons.mp h with rfl | h
      · exact Or.inr (List.mem_cons_self _ _)
      · rcases ih h with h | h
        · exact Or.inl h
        · exact Or.inr (List.mem_cons_of_mem _ h)

theorem foldl_insertIssue_mem : ∀ (l acc : List Issue) {x : Issue},
    x ∈ l.foldl (fun a i => insertIssueColDesc i a) acc →
    x ∈ acc ∨ x ∈ l := by
  intro l
  induction l with
  | nil => intro acc x h; exact Or.inl h
  | cons r rs ih =>
    intro acc x h
    simp only [List.foldl_cons] at h
    rcases ih _ h with h2 | h2
    · rcases insertIssueColDesc_mem h2 with rfl | h3
      · exact Or.inr (List.mem_cons_self _ _)
      · exact Or.inl h3
    · exact Or.inr (List.mem_cons_of_mem _ h2)

theorem sortIssuesColDesc_subset {x : Issue} {l : List Issue}
    (h : x ∈ sortIssuesColDesc l) : x ∈ l := by
  rcases foldl_insertIssue_mem l [] h with h2 | h2
  · exact absurd h2 (List.not_mem_nil x)
  · exact h2

theorem applyQRep_length (s : List Char) (r : QRep) :
    (applyQRep s r).length = s.length := by
  unfold applyQRep
  split
  · exact List.length_set s r.pos r.new
  · rfl

theorem applyQReps_length : ∀ (l : List QRep) (s : List Char),
    (l.foldl applyQRep s).length = s.length := by
  intro l
  induction l with
  | nil => intro s; rfl
  | cons r rs ih =>
    intro s
    simp only [List.foldl_cons]
    rw [ih, applyQRep_length]

theorem applyQRep_get?_ne (s : List Char) (r : QRep) (p : Nat)
    (hne : r.pos ≠ p) : (applyQRep s r).get? p = s.get? p := by
  unfold applyQRep
  split
  · rw [List.get?_eq_getElem?, List.get?_eq_getElem?]
    exact List.getElem?_set_ne hne
  · rfl

theorem applyQReps_untouched : ∀ (l : List QRep) (s : List Char) (p : Nat),
    (∀ r ∈ l, r.pos ≠ p) → (l.foldl applyQRep s).get? p = s.get? p := by
  intro l
  induction l with
  | nil => intro s p _; rfl
  | cons r rs ih =>
    intro s p hl
    simp only [List.foldl_cons]
    rw [ih _ p (fun x hx => hl x (by simp [hx])),
      applyQRep_get?_ne s r p (hl r (by simp))]

theorem applyQRep_nl (s : List Char) (r : QRep) (p : Nat)
    (ho : r.orig ≠ '\n') (hn : r.new ≠ '\n') :
    ((applyQRep s r).get? p = some '\n' ↔ s.get? p = some '\n') := by
  unfold applyQRep
  split
  · next hguard =>
    by_cases hp : r.pos = p
    · subst hp
      have hlt : r.pos < s.length := by
        by_contra hge
        rw [List.get?_eq_none.mpr (by omega)] at hguard
        cases hguard
      rw [List.get?_eq_getElem?, List.getElem?_set_self hlt, hguard]
      constructor
      · intro h2
        exact absurd (Option.some.inj h2) hn
      · intro h2
        exact absurd (Option.some.inj h2) ho
    · rw [List.get?_eq_getElem?, List.get?_eq_getElem?,
        List.getElem?_set_ne hp]
  · exact Iff.rfl

theorem applyQReps_nl : ∀ (l : List QRep),
    (∀ r ∈ l, r.orig ≠ '\n' ∧ r.new ≠ '\n') →
    ∀ (s : List Char) (p : Nat),
    ((l.foldl applyQRep s).get? p = some '\n' ↔ s.get? p = some '\n') := by
  intro l
  induction l with
  | nil => intro _ s p; exact Iff.rfl
  | cons r rs ih =>
    intro hl s p
    simp only [List.foldl_cons]
    obtain ⟨ho, hn⟩ := hl r (by simp)
    exact (ih (fun x hx => hl x (by simp [hx])) _ p).trans
      (applyQRep_nl s r p ho hn)

/-! ### C9 helpers: the per-line pass -/

theorem applyOnLine_length (line : List Char) (issues : List Issue) :
    (applyOnLine line issues).length = line.length := by
  unfold applyOnLine
  generalize sortIssuesColDesc issues = l
  induction l generalizing line with
  | nil => rfl
  | cons i rest ih =>
    simp only [List.foldl_cons]
    rw [ih]
    split
    · exact List.length_set _ _ _
    · rfl

theorem foldFix_diff_col : ∀ (l : List Issue) (line : List Char) (c : Nat),
    (l.foldl (fun l iss =>
      if l.get? iss.col_no = some iss.char then
        l.set iss.col_no iss.suggestion
      else l) line).get? c ≠ line.get? c →
    ∃ i ∈ l, i.col_no = c := by
  intro l
  induction l with
  | nil => intro line c h; exact absurd rfl h
  | cons i rest ih =>
    intro line c h
    simp only [List.foldl_cons] at h
    by_cases hstep : (if line.get? i.col_no = some i.char then
        line.set i.col_no i.suggestion else line).get? c = line.get? c
    · rcases ih _ c (fun he => h (he.trans hstep)) with ⟨j, hj, hcol⟩
      exact ⟨j, List.mem_cons_of_mem _ hj, hcol⟩
    · by_cases hcol : i.col_no = c
      · exact ⟨i, List.mem_cons_self _ _, hcol⟩
      · exfalso
        apply hstep
        split
        · rw [List.get?_eq_getElem?, List.get?_eq_getElem?,
            List.getElem?_set_ne hcol]
        · rfl

theorem applyOnLine_diff_col (line : List Char) (issues : List Issue)
    (c : Nat) (h : (applyOnLine line issues).get? c ≠ line.get? c) :
    ∃ i ∈ issues, i.col_no = c := by
  unfold applyOnLine at h
  rcases foldFix_diff_col _ line c h with ⟨i, hi, hcol⟩
  exact ⟨i, sortIssuesColDesc_subset hi, hcol⟩

theorem applyOnLine_no_nl (line : List Char) (issues : List Issue)
    (hline : '\n' ∉ line) (hsug : ∀ i ∈ issues, i.suggestion ≠ '\n') :
    '\n' ∉ applyOnLine line issues := by
  unfold applyOnLine
  have hgen : ∀ (l : List Issue) (s : List Char), '\n' ∉ s →
      (∀ i ∈ l, i.suggestion ≠ '\n') →
      '\n' ∉ l.foldl (fun l iss =>
        if l.get? iss.col_no = some iss.char then
          l.set iss.col_no iss.suggestion
        else l) s := by
    intro l
    induction l with
    | nil => intro s hs _; exact hs
    | cons i rest ih =>
      intro s hs hl
      simp only [List.foldl_cons]
      apply ih
      · intro hmem
        split at hmem
        · rcases List.mem_or_eq_of_mem_set hmem with h2 | h2
          · exact hs h2
          · exact hl i (by simp) h2.symm
        · exact hs hmem
      · intro x hx
        exact hl x (by simp [hx])
  exact hgen _ line hline (fun i hi => hsug i (sortIssuesColDesc_subset hi))

theorem lineFixStep_length (elig : List Issue) (ls : List (List Char))
    (ln : Nat) : (lineFixStep elig ls ln).length = ls.length := by
  unfold lineFixStep
  split
  · exact List.length_set _ _ _
  · rfl

theorem keysFold_length (elig : List Issue) :
    ∀ (keys : List Nat) (ls : List (List Char)),
    (keys.foldl (lineFixStep elig) ls).length = ls.length := by
  intro keys
  induction keys with
  | nil => intro ls; rfl
  | cons k ks ih =>
    intro ls
    simp only [List.foldl_cons]
    rw [ih, lineFixStep_length]

theorem lineFixStep_shape (elig : List Issue) (ls : List (List Char))
    (ln k : Nat) :
    ((lineFixStep elig ls ln).get? k).map List.length =
      (ls.get? k).map List.length := by
  unfold lineFixStep
  split
  · next h =>
    by_cases hk : ln - 1 = k
    · subst hk
      rw [List.get?_eq_getElem?, List.getElem?_set_self h.2,
        List.get?_eq_get h.2]
      simp [applyOnLine_length]
    · rw [List.get?_eq_getElem?, List.getElem?_set_ne hk,
        ← List.get?_eq_getElem?]
  · rfl

theorem keysFold_shape (elig : List Issue) :
    ∀ (keys : List Nat) (ls : List (List Char)) (k : Nat),
    ((keys.foldl (lineFixStep elig) ls).get? k).map List.length =
      (ls.get? k).map List.length := by
  intro keys
  induction keys with
  | nil => intro ls k; rfl
  | cons ky ks ih =>
    intro ls k
    simp only [List.foldl_cons]
    rw [ih, lineFixStep_shape]

theorem lineFixStep_no_nl (elig : List Issue)
    (hsug : ∀ i ∈ elig, i.suggestion ≠ '\n') (ls : List (List Char))
    (ln : Nat) (hls : ∀ l ∈ ls, '\n' ∉ l) :
    ∀ l ∈ lineFixStep elig ls ln, '\n' ∉ l := by
  intro l hl
  unfold lineFixStep at hl
  split at hl
  · rcases List.mem_or_eq_of_mem_set hl with h2 | h2
    · exact hls l h2
    · subst h2
      apply applyOnLine_no_nl
      · exact hls _ (List.get_mem _ _ _)
      · intro i hi
        exact hsug i (List.mem_filter.mp hi).1
  · exact hls l hl

theorem keysFold_no_nl (elig : List Issue)
    (hsug : ∀ i ∈ elig, i.suggestion ≠ '\n') :
    ∀ (keys : List Nat) (ls : List (List Char)),
    (∀ l ∈ ls, '\n' ∉ l) →
    ∀ l ∈ keys.foldl (lineFixStep elig) ls, '\n' ∉ l := by
  intro keys
  induction keys with
  | nil => intro ls hls; exact hls
  | cons ky ks ih =>
    intro ls hls
    simp only [List.foldl_cons]
    exact ih _ (lineFixStep_no_nl elig hsug ls ky hls)

theorem lineFixStep_diff (elig : List Issue) (ls0 ls : List (List Char))
    (ln : Nat)
    (hrel : ∀ k c l0 l, ls0.get? k = some l0 → ls.get? k = some l →
      l.get? c ≠ l0.get? c →
      ∃ iss ∈ elig, iss.line_no = k + 1 ∧ iss.col_no = c) :
    ∀ k c l0 l, ls0.get? k = some l0 →
      (lineFixStep elig ls ln).get? k = some l →
      l.get? c ≠ l0.get? c →
      ∃ iss ∈ elig, iss.line_no = k + 1 ∧ iss.col_no = c := by
  intro k c l0 l h0 hl hdiff
  unfold lineFixStep at hl
  split at hl
  · next hcond =>
    by_cases hk : ln - 1 = k
    · subst hk
      rw [List.get?_eq_getElem?, List.getElem?_set_self hcond.2] at hl
      rcases Option.some.inj hl with rfl
      by_cases hmid :
          (applyOnLine (ls.get ⟨ln - 1, hcond.2⟩)
            (elig.filter (fun iss => iss.line_no == ln))).get? c =
          (ls.get ⟨ln - 1, hcond.2⟩).get? c
      · refine hrel (ln - 1) c l0 (ls.get ⟨ln - 1, hcond.2⟩) h0 ?_ ?_
        · rw [List.get?_eq_get hcond.2]
        · intro he
          exact hdiff (hmid.trans he)
      · rcases applyOnLine_diff_col _ _ c hmid with ⟨i, hi, hcol⟩
        rcases List.mem_filter.mp hi with ⟨hie, hiln⟩
        refine ⟨i, hie, ?_, hcol⟩
        have hieq : i.line_no = ln := by simpa using hiln
        omega
    · rw [List.get?_eq_getElem?, List.getElem?_set_ne hk,
        ← List.get?_eq_getElem?] at hl
      exact hrel k c l0 l h0 hl hdiff
  · exact hrel k c l0 l h0 hl hdiff

theorem keysFold_diff (elig : List Issue) :
    ∀ (keys : List Nat) (ls0 ls : List (List Char)),
    (∀ k c l0 l, ls0.get? k = some l0 → ls.get? k = some l →
      l.get? c ≠ l0.get? c →
      ∃ iss ∈ elig, iss.line_no = k + 1 ∧ iss.col_no = c) →
    ∀ k c l0 l, ls0.get? k = some l0 →
      (keys.foldl (lineFixStep elig) ls).get? k = some l →
      l.get? c ≠ l0.get? c →
      ∃ iss ∈ elig, iss.line_no = k + 1 ∧ iss.col_no = c := by
  intro keys
  induction keys with
  | nil => intro ls0 ls hrel; exact hrel
  | cons ky ks ih =>
    intro ls0 ls hrel
    simp only [List.foldl_cons]
    exact ih ls0 _ (lineFixStep_diff elig ls0 ls ky hrel)

/-! ### C9 helpers: splitting and joining lines -/

theorem joinNl_cons (l : List Char) (x : List (List Char)) (hx : x ≠ []) :
    joinNl (l :: x) = l ++ '\n' :: joinNl x := by
  cases x with
  | nil => exact absurd rfl hx
  | cons y ys => rfl

theorem splitOnNl_mem_no_nl : ∀ (t : List Char), ∀ l ∈ splitOnNl t,
    '\n' ∉ l := by
  intro t
  induction t with
  | nil =>
    intro l hl
    rcases List.mem_singleton.mp hl with rfl
    exact List.not_mem_nil _
  | cons c cs ih =>
    intro l hl
    simp only [splitOnNl] at hl
    split at hl
    · rcases List.mem_cons.mp hl with rfl | hl
      · exact List.not_mem_nil _
      · exact ih l hl
    · next hc =>
      cases hcs : splitOnNl cs with
      | nil => exact absurd hcs (splitOnNl_ne_nil cs)
      | cons a as =>
        rw [hcs] at hl
        rcases List.mem_cons.mp hl with rfl | hl
        · intro hmem
          rcases List.mem_cons.mp hmem with h2 | h2
          · exact hc h2.symm
          · exact ih a (hcs ▸ List.mem_cons_self a as) h2
        · exact ih l (hcs ▸ List.mem_cons_of_mem a hl)

theorem splitOnNl_append_nl : ∀ (l : List Char), '\n' ∉ l →
    ∀ X, splitOnNl (l ++ '\n' :: X) = l :: splitOnNl X := by
  intro l
  induction l with
  | nil =>
    intro _ X
    simp [splitOnNl]
  | cons c cs ih =>
    intro hl X
    have hc : ¬(c = '\n') := fun h => hl (by simp [h])
    have hcs : '\n' ∉ cs := fun h => hl (by simp [h])
    simp only [List.cons_append, splitOnNl, if_neg hc]
    rw [List.append_eq, ih hcs X]

theorem splitJoin_inv : ∀ (ls : List (List Char)),
    (∀ l ∈ ls, '\n' ∉ l) → ls ≠ [] → splitOnNl (joinNl ls) = ls := by
  intro ls
  induction ls with
  | nil => intro _ h; exact absurd rfl h
  | cons l rest ih =>
    intro hls _
    cases rest with
    | nil =>
      show splitOnNl (joinNl [l]) = [l]
      exact splitOnNl_no_nl (hls l (by simp))
    | cons y ys =>
      rw [joinNl_cons l (y :: ys) (by simp),
        splitOnNl_append_nl l (hls l (by simp)) (joinNl (y :: ys)),
        ih (fun x hx => hls x (List.mem_cons_of_mem _ hx)) (by simp)]

theorem splitOnNl_shape_eq : ∀ (s t : List Char), s.length = t.length →
    (∀ p, (s.get? p = some '\n' ↔ t.get? p = some '\n')) →
    (splitOnNl s).map List.length = (splitOnNl t).map List.length := by
  intro s
  induction s with
  | nil =>
    intro t hlen _
    cases t with
    | nil => rfl
    | cons _ _ => simp at hlen
  | cons c cs ih =>
    intro t hlen hnl
    cases t with
    | nil => simp at hlen
    | cons d ds =>
      have h0 : (c = '\n') ↔ (d = '\n') := by
        have := hnl 0
        simpa using this
      have hrec := ih ds (by simpa using hlen)
        (fun p => by simpa using hnl (p + 1))
      by_cases hc : c = '\n'
      · have hd : d = '\n' := h0.mp hc
        simp only [splitOnNl, if_pos hc, if_pos hd, List.map_cons, hrec]
      · have hd : ¬(d = '\n') := fun h => hc (h0.mpr h)
        simp only [splitOnNl, if_neg hc, if_neg hd]
        cases hcs : splitOnNl cs with
        | nil => exact absurd hcs (splitOnNl_ne_nil cs)
        | cons a as =>
          cases hds : splitOnNl ds with
          | nil => exact absurd hds (splitOnNl_ne_nil ds)
          | cons b bs =>
            rw [hcs, hds] at hrec
            simp only [List.map_cons] at hrec ⊢
            rw [List.cons.injEq] at hrec
            obtain ⟨h1, h2⟩ := hrec
            rw [List.cons.injEq]
            exact ⟨by simp [h1], h2⟩

theorem joinNl_length : ∀ (ls : List (List Char)),
    (joinNl ls).length = (ls.map List.length).sum + (ls.length - 1) := by
  intro ls
  induction ls with
  | nil => rfl
  | cons l rest ih =>
    cases rest with
    | nil => simp [joinNl]
    | cons y ys =>
      rw [joinNl_cons l (y :: ys) (by simp)]
      simp only [List.length_append, List.length_cons, ih, List.map_cons,
        List.sum_cons]
      omega

theorem offPre_cons_succ (l : List Char) (ls : List (List Char)) (k : Nat) :
    offPre (l :: ls) (k + 1) = l.length + 1 + offPre ls k := by
  simp only [offPre, List.take_succ_cons, List.map_cons, List.sum_cons]

theorem map_len1 : ∀ (xs : List (List Char)),
    xs.map (fun l => l.length + 1) = (xs.map List.length).map
      (fun n => n + 1) := by
  intro xs
  rw [List.map_map]
  rfl

theorem offPre_congr {ls ls' : List (List Char)}
    (h : ls.map List.length = ls'.map List.length) (k : Nat) :
    offPre ls k = offPre ls' k := by
  unfold offPre
  rw [List.map_take, List.map_take, map_len1 ls, map_len1 ls', h]

theorem joinNl_get?_eq_of : ∀ (ls ls' : List (List Char)),
    ls.length = ls'.length →
    (∀ k, (ls.get? k).map List.length = (ls'.get? k).map List.length) →
    ∀ p : Nat,
    (∀ k c l l', ls.get? k = some l → ls'.get? k = some l' →
      c < l.length → l'.get? c ≠ l.get? c → offPre ls k + c ≠ p) →
    (joinNl ls').get? p = (joinNl ls).get? p := by
  intro ls
  induction ls with
  | nil =>
    intro ls' hlen _ p _
    cases ls' with
    | nil => rfl
    | cons _ _ => simp at hlen
  | cons l ls ih =>
    intro ls' hlen hll p hdiff
    cases ls' with
    | nil => simp at hlen
    | cons l' ls'' =>
      have hl0 : l.length = l'.length := by
        have := hll 0
        simpa using this
      have hlen' : ls.length = ls''.length := by simpa using hlen
      cases ls with
      | nil =>
        cases ls'' with
        | cons _ _ => simp at hlen'
        | nil =>
          show l'.get? p = l.get? p
          by_cases hp : p < l.length
          · by_contra hne
            exact hdiff 0 p l l' rfl rfl hp hne (by simp [offPre])
          · rw [List.get?_eq_none.mpr (by omega),
              List.get?_eq_none.mpr (by omega)]
      | cons m ms =>
        cases ls'' with
        | nil => simp at hlen'
        | cons m' ms' =>
          rw [joinNl_cons l (m :: ms) (by simp),
            joinNl_cons l' (m' :: ms') (by simp)]
          rcases Nat.lt_trichotomy p l.length with hp | hp | hp
          · rw [List.get?_eq_getElem?, List.get?_eq_getElem?,
              List.getElem?_append_left (by omega : p < l'.length),
              List.getElem?_append_left hp,
              ← List.get?_eq_getElem?, ← List.get?_eq_getElem?]
            by_contra hne
            exact hdiff 0 p l l' rfl rfl hp hne (by simp [offPre])
          · rw [List.get?_eq_getElem?, List.get?_eq_getElem?,
              List.getElem?_append_right (by omega : l'.length ≤ p),
              List.getElem?_append_right (by omega : l.length ≤ p)]
            have e1 : p - l'.length = 0 := by omega
            have e2 : p - l.length = 0 := by omega
            rw [e1, e2]
            simp
          · rw [List.get?_eq_getElem?, List.get?_eq_getElem?,
              List.getElem?_append_right (by omega : l'.length ≤ p),
              List.getElem?_append_right (by omega : l.length ≤ p)]
            have e1 : p - l'.length = (p - l.length - 1) + 1 := by omega
            have e2 : p - l.length = (p - l.length - 1) + 1 := by omega
            rw [e1, e2]
            simp only [List.getElem?_cons_succ]
            rw [← List.get?_eq_getElem?, ← List.get?_eq_getElem?]
            apply ih (m' :: ms') hlen' (fun k => by simpa using hll (k + 1))
            intro k c a b ha hb hc hne heq
            apply hdiff (k + 1) c a b (by simpa using ha) (by simpa using hb)
              hc hne
            rw [offPre_cons_succ]
            omega

/-- Closed witness for the amended C3 at concrete lines. -/
theorem c3_issue_columns_witness :
    ((['中', '中', ','] : List Char).get?
        (⟨1, 2, ',', '，', Region.body, false⟩ : Issue).col_no =
      some (⟨1, 2, ',', '，', Region.body, false⟩ : Issue).char ∧
      (⟨1, 2, ',', '，', Region.body, false⟩ : Issue).line_no = 1) ∧
    tC3.get? (⟨2, 2, ZH_DQUOTE_OPEN, '?', Region.body, true⟩ : Issue).col_no =
      some (⟨2, 2, ZH_DQUOTE_OPEN, '?', Region.body, true⟩ : Issue).char :=
  ⟨c3_issue_columns.1 ['中', '中', ','] 1
      ⟨1, 2, ',', '，', Region.body, false⟩ (by decide),
   c3_issue_columns.2.2 tC3 'A' Region.body
      ⟨2, 2, ZH_DQUOTE_OPEN, '?', Region.body, true⟩ (by decide)⟩

/-- C9: apply_fixes patches only in place, one character for one
character, each replacement guarded by the recorded original, and
applies no warning and no unresolved suggestion; so whenever no
replacement inserts or removes a newline the patched text keeps the
input's length and line count, and every position hit by no absolute
quote replacement and by no eligible Issue offset is unchanged. -/
theorem c9_apply_fixes_frame (text : List Char) (issues : List Issue)
    (qreps : List QRep)
    (hq : ∀ r ∈ qreps, r.orig ≠ '\n' ∧ r.new ≠ '\n')
    (hi : ∀ iss ∈ issues, iss.suggestion ≠ '\n') :
    (apply_fixes text issues qreps).length = text.length ∧
    (splitOnNl (apply_fixes text issues qreps)).length =
      (splitOnNl text).length ∧
    ∀ p : Nat, (∀ r ∈ qreps, r.pos ≠ p) →
      (∀ iss ∈ issues, eligibleFix iss = true → absOfIssue text iss ≠ p) →
      (apply_fixes text issues qreps).get? p = text.get? p := by
  have happ : apply_fixes text issues qreps =
      joinNl ((dedupKeys ((issues.filter eligibleFix).map
          (fun i => i.line_no))).foldl
        (lineFixStep (issues.filter eligibleFix))
        (splitOnNl ((sortQRepsDesc qreps).foldl applyQRep text))) := rfl
  rw [happ]
  set t1 := (sortQRepsDesc qreps).foldl applyQRep text with ht1
  set elig := issues.filter eligibleFix with helig
  set keys := dedupKeys (elig.map (fun i => i.line_no)) with hkeys
  set lines := splitOnNl t1 with hlines
  set lines2 := keys.foldl (lineFixStep elig) lines with hlines2
  have hq2 : ∀ r ∈ sortQRepsDesc qreps, r.orig ≠ '\n' ∧ r.new ≠ '\n' :=
    fun r hr => hq r (sortQRepsDesc_subset hr)
  have A1 : t1.length = text.length := applyQReps_length _ _
  have A2 : ∀ p, (t1.get? p = some '\n' ↔ text.get? p = some '\n') :=
    fun p => applyQReps_nl _ hq2 _ p
  have S : lines.map List.length = (splitOnNl text).map List.length := by
    rw [hlines]
    exact splitOnNl_shape_eq t1 text A1 A2
  have hsug : ∀ i ∈ elig, i.suggestion ≠ '\n' := by
    intro i hi2
    rw [helig] at hi2
    exact hi i (List.mem_filter.mp hi2).1
  have hlnn : ∀ l ∈ lines, '\n' ∉ l := by
    rw [hlines]
    exact splitOnNl_mem_no_nl t1
  have hlnn2 : ∀ l ∈ lines2, '\n' ∉ l := by
    rw [hlines2]
    exact keysFold_no_nl elig hsug keys lines hlnn
  have hlen2 : lines2.length = lines.length := by
    rw [hlines2]
    exact keysFold_length elig keys lines
  have hne2 : lines2 ≠ [] := by
    apply List.length_pos.mp
    rw [hlen2, hlines]
    exact List.length_pos.mpr (splitOnNl_ne_nil t1)
  have hshape : ∀ k, (lines2.get? k).map List.length =
      (lines.get? k).map List.length := by
    intro k
    rw [hlines2]
    exact keysFold_shape elig keys lines k
  have hmap : lines2.map List.length = lines.map List.length := by
    apply List.ext_get?
    intro k
    rw [List.get?_eq_getElem?, List.get?_eq_getElem?, List.getElem?_map,
      List.getElem?_map, ← List.get?_eq_getElem?, ← List.get?_eq_getElem?]
    exact hshape k
  have hlines_len_eq : lines.length = (splitOnNl text).length := by
    have hS := congrArg List.length S
    simpa using hS
  refine ⟨?_, ?_, ?_⟩
  · rw [joinNl_length, hmap, hlen2, ← joinNl_length, hlines, joinNl_split]
    exact A1
  · rw [splitJoin_inv lines2 hlnn2 hne2, hlen2]
    exact hlines_len_eq
  · intro p hqp hip
    have hbase : ∀ k c l0 l, lines.get? k = some l0 →
        lines.get? k = some l → l.get? c ≠ l0.get? c →
        ∃ iss ∈ elig, iss.line_no = k + 1 ∧ iss.col_no = c := by
      intro k c l0 l h1 h2 hd
      rcases Option.some.inj (h1.symm.trans h2) with rfl
      exact absurd rfl hd
    have hstep : (joinNl lines2).get? p = (joinNl lines).get? p := by
      apply joinNl_get?_eq_of lines lines2 hlen2.symm
        (fun k => (hshape k).symm) p
      intro k c l l2 hlk hl2k hcl hne heq
      rw [hlines2] at hl2k
      rcases keysFold_diff elig keys lines lines hbase k c l l2 hlk hl2k hne
        with ⟨iss, hiss, hln, hcol⟩
      have habs : absOfIssue text iss = p := by
        unfold absOfIssue lineOffset
        rw [hln]
        simp only [Nat.add_sub_cancel]
        rw [hcol, ← offPre_congr S k]
        exact heq
      rw [helig] at hiss
      exact hip iss (List.mem_filter.mp hiss).1
        (List.mem_filter.mp hiss).2 habs
    rw [hstep, hlines, joinNl_split, ht1]
    exact applyQReps_untouched _ text p
      (fun r hr => hqp r (sortQRepsDesc_subset hr))

/-- Closed C9 witness: one guarded quote replacement and one eligible
per-line fix on a two-line text; length and line count are kept and
the untouched position 1 is unchanged. -/
theorem c9_apply_fixes_frame_witness :
    (apply_fixes tC9 issC9 qrepsC9).length = tC9.length ∧
    (splitOnNl (apply_fixes tC9 issC9 qrepsC9)).length =
      (splitOnNl tC9).length ∧
    (apply_fixes tC9 issC9 qrepsC9).get? 1 = tC9.get? 1 := by
  obtain ⟨h1, h2, h3⟩ := c9_apply_fixes_frame tC9 issC9 qrepsC9
    (by decide) (by decide)
  exact ⟨h1, h2, h3 1 (by decide) (by decide)⟩

end CheckPunct
